import Mathlib

/-!
# Verification of the Element Locator Discovery & Ranking Engine

Shallow embedding of the xpath-finder core:

* `matching.py` — text normalization and difflib-based similarity scoring
  (including a faithful model of CPython `difflib.SequenceMatcher` with
  `isjunk=None` and `autojunk=True`);
* `tool.py` — the three candidate-discovery strategies and the ranker;
* `xpath.py` — the in-page robust-XPath synthesis algorithm;
* `browser.py` — the page-session manager with its disk snapshot cache.

Modelling conventions:

* Python/JS strings are `String`/`List Char`; all character-level operations
  are re-implemented structurally over `List Char` so that the kernel can
  evaluate them (core `String.replace`/`splitOn`/`trim` do not reduce).
* Python float arithmetic is modelled by exact rationals `ℚ`; `round(x, 3)`
  is modelled as rounding to the nearest multiple of `1/1000`.
* Python regex character classes are modelled at ASCII fidelity
  (`\w` = alphanumeric or underscore, `\s` = ASCII whitespace).
* While-loops and non-structural recursions are implemented with an explicit
  fuel parameter whose initial value provably dominates the number of
  iterations, so the functions stay kernel-computable.
-/

namespace Finder

abbrev Chars := List Char

/-- Lowercasing a character (`str.lower` / `String.toLowerCase`, ASCII). -/
def lc (c : Char) : Char := c.toLower

def lowerL (s : Chars) : Chars := s.map lc

/-- Python `\s` (ASCII whitespace). -/
def isSpaceChar (c : Char) : Bool := c.isWhitespace

/-- Python `\w` (ASCII): letters, digits, underscore. -/
def isWordChar (c : Char) : Bool := c.isAlphanum || c = '_'

/-- The quote/apostrophe characters removed by both normalizers:
ASCII `'`, `"`, backtick, and the four smart-quote variants. -/
def isQuoteChar (c : Char) : Bool :=
  c = Char.ofNat 39 || c = Char.ofNat 34 || c = Char.ofNat 96 ||
  c = Char.ofNat 0x2018 || c = Char.ofNat 0x2019 ||
  c = Char.ofNat 0x201c || c = Char.ofNat 0x201d

/-- `re.sub(r"\s+", " ", s)`: collapse runs of whitespace to a single space. -/
def collapseWS : Chars → Chars
  | [] => []
  | c :: rest =>
    let r := collapseWS rest
    if isSpaceChar c then
      match r with
      | d :: t => if d = ' ' then d :: t else ' ' :: d :: t
      | [] => [' ']
    else c :: r

/-- Python `str.strip()`: drop leading and trailing whitespace. -/
def stripL (s : Chars) : Chars :=
  ((s.dropWhile isSpaceChar).reverse.dropWhile isSpaceChar).reverse

/-- `matching.normalize`: lowercase; remove quotes/apostrophes (incl. smart
quotes); replace remaining punctuation (non-word, non-space) with spaces;
collapse whitespace; trim. -/
def normalizeL (s : Chars) : Chars :=
  let lowered := lowerL s
  let noQuotes := lowered.filter (fun c => !isQuoteChar c)
  let depunct := noQuotes.map (fun c => if !isWordChar c && !isSpaceChar c then ' ' else c)
  stripL (collapseWS depunct)

def normalize (s : String) : String := ⟨normalizeL s.data⟩

/-- `matching.normalize_id`: lowercase and remove all whitespace, hyphens,
underscores and quote characters. -/
def normalizeIdL (s : Chars) : Chars :=
  (lowerL s).filter (fun c => !(isSpaceChar c || c = '-' || c = '_' || isQuoteChar c))

def normalize_id (s : String) : String := ⟨normalizeIdL s.data⟩

/-!
### difflib.SequenceMatcher

Model of CPython `difflib.SequenceMatcher(None, a, b).ratio()`:
`b2j` indexes `b` with the autojunk purge of popular elements
(active when `len(b) >= 200`; `isjunk` is `None`, so the junk set is empty
and the two junk-extension loops of `find_longest_match` never run);
`find_longest_match` is the `j2len` dynamic program followed by the two
non-junk extension while-loops; `ratio` is `2*M/T` over the total size `M`
of the matching blocks found by the recursive block decomposition
(the queue order of `get_matching_blocks` does not affect the total).
-/

/-- Indexing with a default character (indices used are always in range). -/
def aAt (s : Chars) (i : Nat) : Char := s.getD i (Char.ofNat 0)

/-- `b2j[c]`: the increasing list of positions of `c` in `b`, emptied for
popular characters when `len(b) >= 200` (autojunk; `ntest = n // 100 + 1`). -/
def b2j (b : Chars) (c : Char) : List Nat :=
  let idxs := (List.range b.length).filter (fun j => aAt b j = c)
  if b.length ≥ 200 ∧ idxs.length > b.length / 100 + 1 then [] else idxs

/-- State of the `find_longest_match` dynamic program: the current row's
`newj2len` dict (total function, absent keys read 0) and the running best. -/
structure DPState where
  j2len : Nat → Nat
  besti : Nat
  bestj : Nat
  bestsize : Nat

/-- One inner-loop step of `find_longest_match` at row `i`, column `j`:
`k = j2len.get(j-1, 0) + 1` read from the previous row `old`,
written into the current row, best updated on strict improvement. -/
def rowStep (old : Nat → Nat) (i : Nat) (st : DPState) (j : Nat) : DPState :=
  let k := (if j = 0 then 0 else old (j - 1)) + 1
  let j2len' := fun x => if x = j then k else st.j2len x
  if st.bestsize < k then ⟨j2len', i + 1 - k, j + 1 - k, k⟩
  else ⟨j2len', st.besti, st.bestj, st.bestsize⟩

/-- The outer loop of the dynamic program over rows `alo, ..., ahi-1`;
`continue`/`break` on `j < blo` / `j >= bhi` become a filter because the
index lists are increasing. -/
def dpRows (a b : Chars) (blo bhi : Nat) (rows : List Nat) (init : DPState) : DPState :=
  rows.foldl (fun st i =>
    let js := (b2j b (aAt a i)).filter (fun j => decide (blo ≤ j) && decide (j < bhi))
    js.foldl (rowStep st.j2len i) ⟨fun _ => 0, st.besti, st.bestj, st.bestsize⟩) init

/-- The first (non-junk) extension loop: grow the best block to the left while
`besti > alo and bestj > blo and a[besti-1] == b[bestj-1]`.  Fuel `besti`
dominates the iteration count (each step decrements `besti`). -/
def extLeftF (a b : Chars) (alo blo : Nat) : Nat → Nat × Nat × Nat → Nat × Nat × Nat
  | 0, r => r
  | fuel + 1, (bi, bj, bk) =>
    if alo < bi ∧ blo < bj ∧ aAt a (bi - 1) = aAt b (bj - 1) then
      extLeftF a b alo blo fuel (bi - 1, bj - 1, bk + 1)
    else (bi, bj, bk)

/-- The second (non-junk) extension loop: grow the best block to the right
while `besti+bestsize < ahi and bestj+bestsize < bhi and a[..] == b[..]`.
Fuel `ahi` dominates the iteration count (each step needs `bi + bk < ahi`). -/
def extRightF (a b : Chars) (ahi bhi bi bj : Nat) : Nat → Nat → Nat
  | 0, bk => bk
  | fuel + 1, bk =>
    if bi + bk < ahi ∧ bj + bk < bhi ∧ aAt a (bi + bk) = aAt b (bj + bk) then
      extRightF a b ahi bhi bi bj fuel (bk + 1)
    else bk

/-- `find_longest_match(alo, ahi, blo, bhi)` (with `isjunk=None`, so the two
junk-extension loops are no-ops and are omitted). -/
def flm (a b : Chars) (alo ahi blo bhi : Nat) : Nat × Nat × Nat :=
  let st := dpRows a b blo bhi (List.range' alo (ahi - alo)) ⟨fun _ => 0, alo, blo, 0⟩
  let l := extLeftF a b alo blo st.besti (st.besti, st.bestj, st.bestsize)
  let k := extRightF a b ahi bhi l.1 l.2.1 ahi l.2.2
  (l.1, l.2.1, k)

/-- Total size of the matching blocks of `get_matching_blocks` on the range
`[alo, ahi) × [blo, bhi)`: the LIFO queue of subranges is equivalent to this
recursion, and only the sum of block sizes is needed for `ratio`.
Fuel dominates the recursion depth: every recursive call strictly decreases
`(ahi - alo) + (bhi - blo)` (see `flm_bounds`), so the initial fuel
`(ahi - alo) + (bhi - blo) + 1` is never exhausted. -/
def matchSumF (a b : Chars) : Nat → Nat → Nat → Nat → Nat → Nat
  | 0, _, _, _, _ => 0
  | fuel + 1, alo, ahi, blo, bhi =>
    let r := flm a b alo ahi blo bhi
    if r.2.2 = 0 then 0
    else
      r.2.2 +
        (if alo < r.1 ∧ blo < r.2.1 then matchSumF a b fuel alo r.1 blo r.2.1 else 0) +
        (if r.1 + r.2.2 < ahi ∧ r.2.1 + r.2.2 < bhi then
          matchSumF a b fuel (r.1 + r.2.2) ahi (r.2.1 + r.2.2) bhi else 0)

/-- `sum(size for (i, j, size) in sm.get_matching_blocks())` for the whole
sequences. -/
def matchTotal (a b : Chars) : Nat :=
  matchSumF a b (a.length + b.length + 1) 0 a.length 0 b.length

/-- `SequenceMatcher.ratio()` via `_calculate_ratio`:
`2.0 * matches / (len(a) + len(b))`, and `1.0` when both are empty. -/
def ratioL (a b : Chars) : ℚ :=
  if a.length + b.length = 0 then 1
  else 2 * (matchTotal a b : ℚ) / ((a.length : ℚ) + (b.length : ℚ))

/-- `matching.similarity`: 0 when either raw input is empty, else the
difflib ratio of the free-text-normalized forms. -/
def similarity (text1 text2 : String) : ℚ :=
  if text1 = "" || text2 = "" then 0
  else ratioL (normalizeL text1.data) (normalizeL text2.data)

/-- `matching.id_similarity`: 0 when either raw input is empty, else the
difflib ratio of the identifier-normalized forms. -/
def id_similarity (text1 text2 : String) : ℚ :=
  if text1 = "" || text2 = "" then 0
  else ratioL (normalizeIdL text1.data) (normalizeIdL text2.data)

/-!
### tool.py — candidate discovery and ranking

The Playwright page is abstracted as the record `PWPage`: its fields are the
driver query primitives the tool calls (`get_by_text`, `get_by_role`,
`get_by_label`, `get_by_placeholder`, `page.locator(sel).all()`), each
returning the data the tool reads from them (match counts, element info from
`get_element_info`, inner text, attribute values).  Driver exceptions are
swallowed per sub-step in the source; the embedding models the normal path.
-/

/-- The dict returned by `get_element_info`. -/
structure ElementInfo where
  xpath : String
  match_count : Nat
  css : String
  tag : String
  text : String
  attributes : List (String × String)
deriving DecidableEq

/-- A locator candidate dict: `{**info, "confidence": ..., "strategy": ...}`
plus the `rank` assigned by the ranker (0 before ranking). -/
structure Candidate where
  xpath : String
  match_count : Nat
  css : String
  tag : String
  text : String
  attributes : List (String × String)
  confidence : ℚ
  strategy : String
  rank : Nat
deriving DecidableEq

def infoToCandidate (info : ElementInfo) (conf : ℚ) (strat : String) : Candidate :=
  ⟨info.xpath, info.match_count, info.css, info.tag, info.text, info.attributes,
    conf, strat, 0⟩

/-- Python `round(x, 3)`: nearest multiple of `1/1000` (float banker's
rounding modelled as exact rational rounding). -/
def round3 (q : ℚ) : ℚ := (round (q * 1000) : ℚ) / 1000

/-- Result of one Playwright native-locator attempt: `locator.count()` and
`get_element_info(page, locator.first)`. -/
structure PWQueryResult where
  count : Nat
  info : ElementInfo
deriving DecidableEq

/-- An element handle as used by the tool: `el.inner_text()`,
`el.get_attribute(name)` (`""` models both `None` and the empty string,
which the tool treats identically via truthiness), and
`get_element_info(page, el)`. -/
structure PWElement where
  innerText : String
  getAttr : String → String
  info : ElementInfo

/-- The loaded page, abstracted to the query primitives used by the tool. -/
structure PWPage where
  byText : String → PWQueryResult
  byRole : String → String → PWQueryResult
  byLabel : String → PWQueryResult
  byPlaceholder : String → PWQueryResult
  locatorAll : String → List PWElement

/-- Raw (pre-rounding) confidence of a native-locator attempt:
blend with text similarity when the element has text, else `base * 0.8`;
multiply by `0.85` when the query matched more than one node. -/
def pwRawConf (searchText : String) (base : ℚ) (q : PWQueryResult) : ℚ :=
  let c0 := if q.info.text ≠ "" then base * (1/2 + 1/2 * similarity searchText q.info.text)
            else base * (8/10)
  if q.count > 1 then c0 * (85/100) else c0

/-- `_find_via_playwright`: the ordered native-locator attempts
(text 0.95; role 0.90 inserted second only when a concrete element type was
requested; label 0.88; placeholder 0.85), appending one candidate per
attempt that matched at least one node. -/
def findViaPlaywright (page : PWPage) (searchText elementType : String)
    (candidates : List Candidate) : List Candidate :=
  let textA := (page.byText searchText, (95 : ℚ)/100, "playwright_text")
  let roleA := (page.byRole elementType searchText, (90 : ℚ)/100, "playwright_role")
  let labelA := (page.byLabel searchText, (88 : ℚ)/100, "playwright_label")
  let placeA := (page.byPlaceholder searchText, (85 : ℚ)/100, "playwright_placeholder")
  let attempts := if elementType ≠ "*" then [textA, roleA, labelA, placeA]
                  else [textA, labelA, placeA]
  attempts.foldl (fun acc att =>
    if att.1.count > 0 then
      acc ++ [infoToCandidate att.1.info (round3 (pwRawConf searchText att.2.1 att.1)) att.2.2]
    else acc) candidates

/-- The CSS selector enumerated by the fuzzy strategy. -/
def fuzzySelector (elementType : String) : String :=
  if elementType ≠ "*" then elementType
  else "button, a, input, label, span, div, h1, h2, h3, p, li"

/-- Raw fuzzy confidence: maps similarity `0.5..1.0` to `0.6..1.0`. -/
def fuzzyRawConf (sim : ℚ) : ℚ := 6/10 + (sim - 1/2) * (8/10)

/-- `_find_via_fuzzy_text`: scan the first 100 enumerated elements, skip
empty inner text or inner text over 200 characters, accept similarity
`>= 0.5`. -/
def findViaFuzzyText (page : PWPage) (searchText elementType : String)
    (candidates : List Candidate) : List Candidate :=
  ((page.locatorAll (fuzzySelector elementType)).take 100).foldl (fun acc el =>
    let text := el.innerText
    if text = "" ∨ text.length > 200 then acc
    else
      let sim := similarity searchText text
      if 1/2 ≤ sim then
        acc ++ [infoToCandidate el.info (round3 (fuzzyRawConf sim)) "fuzzy_text_match"]
      else acc) candidates

def MATCHABLE_ATTRIBUTES : List String :=
  ["id", "name", "class", "data-testid", "aria-label",
   "placeholder", "title", "value", "alt"]

/-- Raw attribute-strategy confidence: `base * sim` with base 0.85 for
`id`/`data-testid` and 0.75 otherwise. -/
def attrRawConf (attr : String) (sim : ℚ) : ℚ :=
  (if attr = "id" ∨ attr = "data-testid" then (85 : ℚ)/100 else 75/100) * sim

/-- `_find_via_attributes`: per matchable attribute, scan the first 50
elements of `page.locator(f"tag[attr]")`, skip falsy attribute values,
accept identifier similarity `>= 0.6`. -/
def findViaAttributes (page : PWPage) (searchText elementType : String)
    (candidates : List Candidate) : List Candidate :=
  let tag := if elementType ≠ "*" then elementType else "*"
  MATCHABLE_ATTRIBUTES.foldl (fun acc attr =>
    ((page.locatorAll (tag ++ "[" ++ attr ++ "]")).take 50).foldl (fun acc2 el =>
      let v := el.getAttr attr
      if v = "" then acc2
      else
        let sim := id_similarity searchText v
        if 6/10 ≤ sim then
          acc2 ++ [infoToCandidate el.info (round3 (attrRawConf attr sim))
                    ("attribute_match_" ++ attr)]
        else acc2) acc) candidates

/-- The dedup key `(c.get("xpath",""), c.get("tag",""))`. -/
def keyOf (c : Candidate) : String × String := (c.xpath, c.tag)

/-- Replace the value stored at `k` when the incoming candidate has strictly
higher confidence; the entry keeps its position (Python dict update). -/
def updateAssoc (k : String × String) (c : Candidate) :
    List ((String × String) × Candidate) → List ((String × String) × Candidate)
  | [] => []
  | (k', v) :: rest =>
    if k' = k then (if v.confidence < c.confidence then (k', c) else (k', v)) :: rest
    else (k', v) :: updateAssoc k c rest

/-- One step of the dedup loop of `_rank_candidates`:
`if key[0] and (key not in seen or seen[key]["confidence"] < c["confidence"]):
seen[key] = c`, on an insertion-ordered dict. -/
def dedupStep (seen : List ((String × String) × Candidate)) (c : Candidate) :
    List ((String × String) × Candidate) :=
  if c.xpath = "" then seen
  else if seen.any (fun p => decide (p.1 = keyOf c)) then updateAssoc (keyOf c) c seen
  else seen ++ [(keyOf c, c)]

/-- The dedup dict built over the whole candidate list, in key-insertion
order (Python dict iteration order of `seen.values()`). -/
def dedup (l : List Candidate) : List ((String × String) × Candidate) :=
  l.foldl dedupStep []

/-- Stable insertion of one candidate into a confidence-descending list:
the element being inserted comes from earlier in the input, so it goes in
front of equal-confidence elements. -/
def insertDesc (c : Candidate) : List Candidate → List Candidate
  | [] => [c]
  | x :: xs => if x.confidence ≤ c.confidence then c :: x :: xs else x :: insertDesc c xs

/-- `sorted(..., key=lambda x: x["confidence"], reverse=True)`: Python sort
is stable, so it equals stable insertion sort by descending confidence. -/
def sortDesc : List Candidate → List Candidate
  | [] => []
  | c :: rest => insertDesc c (sortDesc rest)

/-- `for i, c in enumerate(result, 1): c["rank"] = i`. -/
def assignRanks (l : List Candidate) : List Candidate :=
  l.enum.map (fun p => { p.2 with rank := p.1 + 1 })

/-- `_rank_candidates`: dedup by `(xpath, tag)`, sort by confidence
descending, truncate to `top_n`, assign 1-based ranks. -/
def rank_candidates (candidates : List Candidate) (top_n : Nat) : List Candidate :=
  assignRanks ((sortDesc ((dedup candidates).map (·.2))).take top_n)

/-- `find_xpath` on an already-loaded page and already-parsed hint
(`get_page`/`_parse_hint` happen before the three strategies run):
the three strategies append into one shared candidate list, then rank. -/
def find_xpath (page : PWPage) (searchText elementType : String) (top_n : Nat) :
    List Candidate :=
  rank_candidates
    (findViaAttributes page searchText elementType
      (findViaFuzzyText page searchText elementType
        (findViaPlaywright page searchText elementType []))) top_n

/-!
### xpath.py — `getRobustXPath` (the in-page escalation algorithm)

The DOM node is the record `DomElement` (attribute map, inner text, parent
attribute map, and a node identity for the positional fallback); the
document is abstracted to `document.evaluate`, a function from an XPath
string to the ordered snapshot of matching node ids.  `countXPath` is its
snapshot length (the JS helper returns 0 on an evaluation exception; the
model is total).  JS attribute reads collapse `null` and `""` to `""`,
which the algorithm treats identically via truthiness.
-/

/-- Pattern-first character-list `startsWith`. -/
def startsWithL : Chars → Chars → Bool
  | [], _ => true
  | _ :: _, [] => false
  | p :: ps, c :: cs => (c = p) && startsWithL ps cs

/-- JS `String.split(sep)` for a single-character separator (keeps empty
pieces). -/
def splitChar (sep : Char) : Chars → List Chars
  | [] => [[]]
  | c :: rest =>
    let r := splitChar sep rest
    if c = sep then [] :: r
    else match r with
      | h :: t => (c :: h) :: t
      | [] => [[c]]

/-- JS `String.trim()` (ASCII whitespace). -/
def trimS (s : String) : String := ⟨stripL s.data⟩

structure DomElement where
  nodeId : Nat
  tagName : String
  attrs : List (String × String)
  innerText : String
  parent : Option (List (String × String))

def getAttr (attrs : List (String × String)) (n : String) : String :=
  (attrs.lookup n).getD ""

/-- The document, abstracted to `document.evaluate` returning the ordered
snapshot of node ids matching an XPath expression. -/
structure DocEnv where
  evalXPath : String → List Nat

def countXPath (doc : DocEnv) (x : String) : Nat := (doc.evalXPath x).length

/-- `element.id.match(/^[0-9]|:/)`: the regex matches when the id starts
with a digit OR contains a colon anywhere. -/
def idSkipMatch (s : String) : Bool :=
  (match s.data with | [] => false | c :: _ => c.isDigit) || s.data.contains ':'

/-- `text.replace(/'/g, ...)` used by `escapeXPathText`. -/
def xpathEscapeL : Chars → Chars
  | [] => []
  | c :: r => (if c = Char.ofNat 39 then "', \"'\", '".data else [c]) ++ xpathEscapeL r

/-- JS `escapeXPathText`: quote with single quotes, switching to an XPath
`concat(...)` construction when the text itself contains a single quote. -/
def escapeXPathText (t : String) : String :=
  if t = "" then "\"\""
  else if t.data.contains (Char.ofNat 39) then "concat('" ++ String.mk (xpathEscapeL t.data) ++ "')"
  else "'" ++ t ++ "'"

/-- The utility/layout class-name deny-list prefixes (the leading-digit
alternative `[0-9]` is checked separately). -/
def classDenylist : List String :=
  ["btn", "col-", "row", "container", "wrapper", "active", "disabled",
   "hidden", "show", "flex", "grid", "mt-", "mb-", "pt-", "pb-", "px-",
   "py-", "mx-", "my-"]

def classExcluded (c : String) : Bool :=
  classDenylist.any (fun p => startsWithL p.data c.data) ||
  (match c.data with | [] => false | ch :: _ => ch.isDigit)

/-- `className.split(' ').filter(c => c && c.length > 2 && !c.match(...))`. -/
def meaningfulClasses (className : String) : List String :=
  ((splitChar ' ' className.data).map String.mk).filter
    (fun c => c ≠ "" && c.length > 2 && !classExcluded c)

/-- Tags for which a text-content predicate is collected. -/
def textPredTags : List String :=
  ["button", "a", "label", "span", "h1", "h2", "h3", "h4", "p", "div", "li"]

/-- JS `Array.join(' and ')`. -/
def joinAnd : List String → String
  | [] => ""
  | [p] => p
  | p :: q :: rest => p ++ " and " ++ joinAnd (q :: rest)

/-- The ordered predicate collection of `getRobustXPath` (steps 1-7 of the
JS: id — pushed only when present and not skipped by the regex —
data-testid, name, input-specific attributes, short text content for
text-bearing tags, up to two meaningful classes, aria-label). -/
def collectPreds (el : DomElement) (tag : String) : List String :=
  let elid := getAttr el.attrs "id"
  (if elid ≠ "" ∧ ¬ idSkipMatch elid then ["@id='" ++ elid ++ "'"] else []) ++
  (let t := getAttr el.attrs "data-testid"
   if t ≠ "" then ["@data-testid='" ++ t ++ "'"] else []) ++
  (let n := getAttr el.attrs "name"
   if n ≠ "" then ["@name='" ++ n ++ "'"] else []) ++
  (if tag = "input" then
    (let ty := getAttr el.attrs "type"
     if ty ≠ "" then ["@type='" ++ ty ++ "'"] else []) ++
    (let v := getAttr el.attrs "value"
     if v ≠ "" ∧ v.length < 20 then ["@value='" ++ v ++ "'"] else []) ++
    (let p := getAttr el.attrs "placeholder"
     if p ≠ "" then ["@placeholder='" ++ p ++ "'"] else [])
   else []) ++
  (let txt := trimS el.innerText
   if txt ≠ "" ∧ txt.length < 50 ∧ tag ∈ textPredTags then
     ["contains(normalize-space(.), " ++ escapeXPathText txt ++ ")"] else []) ++
  ((meaningfulClasses (getAttr el.attrs "class")).take 2 |>.map
    (fun c => "contains(@class, '" ++ c ++ "')")) ++
  (let a := getAttr el.attrs "aria-label"
   if a ≠ "" then ["@aria-label='" ++ a ++ "'"] else [])

/-- `getRobustXPath`: the escalation algorithm — unique id; single
predicate; up to three predicates combined (returned even when non-unique
if the count is under 5); parent-scoped; positional fallback. -/
def getRobustXPath (doc : DocEnv) (el : DomElement) : String × Nat :=
  let tag : String := ⟨lowerL el.tagName.data⟩
  let elid := getAttr el.attrs "id"
  let idX := "//" ++ tag ++ "[@id='" ++ elid ++ "']"
  if elid ≠ "" ∧ ¬ idSkipMatch elid ∧ countXPath doc idX = 1 then (idX, 1)
  else
    let preds := collectPreds el tag
    match preds.findSome? (fun p =>
        let x := "//" ++ tag ++ "[" ++ p ++ "]"
        if countXPath doc x = 1 then some (x, 1) else none) with
    | some r => r
    | none =>
      let combined : Option (String × Nat) :=
        if preds.length > 1 then
          let x := "//" ++ tag ++ "[" ++ joinAnd (preds.take 3) ++ "]"
          let c := countXPath doc x
          if c = 1 then some (x, c) else if c < 5 then some (x, c) else none
        else none
      match combined with
      | some r => r
      | none =>
        let parentStep : Option (String × Nat) :=
          match el.parent with
          | none => none
          | some pa =>
            let pid := getAttr pa "id"
            let ptid := getAttr pa "data-testid"
            let pcn := getAttr pa "class"
            let parentXPath :=
              if pid ≠ "" then "//*[@id='" ++ pid ++ "']"
              else if ptid ≠ "" then "//*[@data-testid='" ++ ptid ++ "']"
              else if pcn ≠ "" then
                let pClass : String := ⟨(splitChar ' ' pcn.data).headD []⟩
                if pClass ≠ "" then "//*[contains(@class, '" ++ pClass ++ "')]" else ""
              else ""
            if parentXPath ≠ "" then
              let childPred := if preds.length > 0 then "[" ++ joinAnd (preds.take 2) ++ "]" else ""
              let x := parentXPath ++ "//" ++ tag ++ childPred
              if countXPath doc x = 1 then some (x, 1) else none
            else none
        match parentStep with
        | some r => r
        | none =>
          let base := "//" ++ tag ++
            (if preds.length > 0 then "[" ++ joinAnd (preds.take 2) ++ "]" else "")
          let siblings := doc.evalXPath base
          match siblings.findIdx? (fun nid => nid == el.nodeId) with
          | some i => ("(" ++ base ++ ")[" ++ toString (i + 1) ++ "]", 1)
          | none => (base, siblings.length)

/-!
### browser.py — `get_page` and the disk snapshot cache

The world state is explicit: the process-lifetime `_page_cache`
(url → page id), the disk cache (key → html and modification time), a fresh
page-id counter, and the clock.  The browser driver's navigation
(`page.goto` + settling + lazy-load scrolling + `page.content()`) is the
parameter `nav : String → Option String`: `some content` on success, `none`
when navigation raises.  Observables of one call: the returned page id, the
updated world, whether a live navigation was attempted, and the HTML
injected via `set_content` (when served from the snapshot cache).  The md5
hex-digest cache filename is abstracted to the url itself (an injective
key; hash collisions are out of scope).
-/

def occursL (pat : Chars) : Chars → Bool
  | [] => startsWithL pat []
  | c :: rest => startsWithL pat (c :: rest) || occursL pat rest

/-- Python `str.replace(old, new, 1)`: replace the leftmost occurrence. -/
def replaceFirstL (pat repl : Chars) : Chars → Chars
  | [] => []
  | c :: rest =>
    if startsWithL pat (c :: rest) then repl ++ (c :: rest).drop pat.length
    else c :: replaceFirstL pat repl rest

/-- Case-insensitive pattern-first `startsWith` (pattern given lowercase). -/
def startsWithCI : Chars → Chars → Bool
  | [], _ => true
  | _ :: _, [] => false
  | p :: ps, c :: cs => (lc c = p) && startsWithCI ps cs

def occursCI (pat : Chars) : Chars → Bool
  | [] => startsWithCI pat []
  | c :: rest => startsWithCI pat (c :: rest) || occursCI pat rest

def scriptOpenPat : Chars := "<script".data

def scriptClosePat : Chars := "</script>".data

/-- Index of the first (case-insensitive) `</script>` — the lazy
`[\s\S]*?</script>` part of the regex. -/
def findCloseIdx : Chars → Option Nat
  | [] => none
  | c :: rest =>
    if startsWithCI scriptClosePat (c :: rest) then some 0
    else (findCloseIdx rest).map (· + 1)

/-- Length of the match of `re` pattern `<script\b[^>]*>[\s\S]*?</script>`
(with `re.I`) at the start of `s`, if any: the literal `<script`, a word
boundary, all characters up to the first `>`, then lazily up to the first
`</script>`. -/
def scriptMatchLen (s : Chars) : Option Nat :=
  if startsWithCI scriptOpenPat s then
    let after := s.drop 7
    let bOk : Bool := match after with | [] => true | c :: _ => !isWordChar c
    if bOk then
      match after.findIdx? (fun c => c == '>') with
      | none => none
      | some g =>
        match findCloseIdx (s.drop (7 + g + 1)) with
        | none => none
        | some q => some (7 + g + 1 + q + 9)
    else none
  else none

/-- `re.sub(pattern, "", html)`: scan left to right, delete each leftmost
non-overlapping match, continue after its end.  Fuel dominates the step
count: every step strictly shortens the remaining input (a match has
positive length), so `length + 1` is never exhausted. -/
def stripScriptsF : Nat → Chars → Chars
  | 0, s => s
  | _ + 1, [] => []
  | fuel + 1, c :: rest =>
    match scriptMatchLen (c :: rest) with
    | some L => stripScriptsF fuel (rest.drop (L - 1))
    | none => c :: stripScriptsF fuel rest

def stripScriptsL (s : Chars) : Chars := stripScriptsF (s.length + 1) s

def stripScripts (s : String) : String := ⟨stripScriptsL s.data⟩

/-- The injected base element `f'<head><base href="{url}">'` (tail part). -/
def baseHref (url : String) : String := "<base href=\"" ++ url ++ "\">"

/-- The base-injection step: when the lowercased first 1000 characters do
not contain `<base`, replace the first literal `<head>` with
`<head><base href="url">`. -/
def baseAdjust (url html : String) : String :=
  if !occursL "<base".data (lowerL (html.data.take 1000)) then
    ⟨replaceFirstL "<head>".data ("<head>" ++ baseHref url).data html.data⟩
  else html

structure PageWorld where
  pageCache : List (String × Nat)
  disk : List (String × (String × Nat))
  nextId : Nat
  now : Nat
deriving DecidableEq

/-- The cache filename `md5(url).hexdigest() + ".html"`, abstracted to the
url (an injective key). -/
def cacheKey (url : String) : String := url

/-- The disk-cache read as observed by the `if cached_html:` truthiness
test: a non-expired entry (written less than 3600 seconds ago) whose
content is non-empty, or nothing.  `cached_html` stays `None` when the file
is absent or expired, and an empty string read from a fresh file is falsy
too, so both cases fall through to live navigation. -/
def diskFresh (w : PageWorld) (url : String) : Option String :=
  match w.disk.lookup (cacheKey url) with
  | some (html, mtime) =>
    if w.now - mtime < 3600 ∧ html ≠ "" then some html else none
  | none => none

/-- Writing the cache file (overwrite in place or create). -/
def diskWrite (d : List (String × (String × Nat))) (k : String) (v : String × Nat) :
    List (String × (String × Nat)) :=
  if d.any (fun p => decide (p.1 = k)) then d.map (fun p => if p.1 = k then (k, v) else p)
  else d ++ [(k, v)]

structure GetPageOutcome where
  page : Nat
  world : PageWorld
  liveNav : Bool
  setHtml : Option String
  raised : Bool
deriving DecidableEq

/-- `get_page`: return the live session if one exists; otherwise create a
page, serve a non-expired snapshot via `set_content` (base injection +
script stripping), or navigate live — writing the snapshot on success and
swallowing the exception on failure (`raised` is always `false`) — and
register the session before returning. -/
def get_page (nav : String → Option String) (w : PageWorld) (url : String) :
    GetPageOutcome :=
  match w.pageCache.lookup url with
  | some pid => ⟨pid, w, false, none, false⟩
  | none =>
    let pid := w.nextId
    let reg : PageWorld → PageWorld := fun w' =>
      { w' with pageCache := w'.pageCache ++ [(url, pid)], nextId := pid + 1 }
    match diskFresh w url with
    | some html =>
      ⟨pid, reg w, false, some (stripScripts (baseAdjust url html)), false⟩
    | none =>
      match nav url with
      | some content =>
        ⟨pid, reg { w with disk := diskWrite w.disk (cacheKey url) (content, w.now) },
          true, none, false⟩
      | none =>
        ⟨pid, reg w, true, none, false⟩

end Finder

namespace Finder

/-! ### Ranker: the dedup invariant -/

/-- Index of the first input candidate carrying a given dedup key. -/
def firstKeyIdx (l : List Candidate) (k : String × String) : Nat :=
  l.findIdx (fun c => decide (keyOf c = k))

/-- Invariant of the dedup dict relative to the processed prefix `p`:
entries are ordered by first occurrence of their key, each entry stores a
well-formed candidate from `p` holding the maximum confidence of its key
group, and every nonempty-locator key of `p` is present. -/
structure DedupInv (p : List Candidate) (seen : List ((String × String) × Candidate)) :
    Prop where
  ord : List.Pairwise (fun q r => firstKeyIdx p q.1 < firstKeyIdx p r.1) seen
  wf : ∀ q ∈ seen, q.1 = keyOf q.2 ∧ q.2.xpath ≠ "" ∧ q.2 ∈ p
  cover : ∀ c ∈ p, c.xpath ≠ "" → ∃ q ∈ seen, q.1 = keyOf c
  maxc : ∀ q ∈ seen, ∀ c ∈ p, keyOf c = q.1 → c.confidence ≤ q.2.confidence

/-! ### Concrete instances and proof-side predicates used below -/

/-- Invariant of the `find_longest_match` dynamic program after processing
the rows `alo, ..., alo + m - 1`: dict values are bounded by the number of
rows and by the available width left of their column; the best block lies
inside the processed area. -/
structure DPInv (alo blo bhi m : Nat) (st : DPState) : Prop where
  jlen_le : ∀ x, st.j2len x ≤ m
  jlen_pos : ∀ x, st.j2len x ≠ 0 → blo ≤ x ∧ x < bhi ∧ st.j2len x ≤ x + 1 - blo
  bi_ge : alo ≤ st.besti
  bj_ge : blo ≤ st.bestj
  bik : st.besti + st.bestsize ≤ alo + m
  bjk : st.bestsize ≠ 0 → st.bestj + st.bestsize ≤ bhi
  bz : st.bestsize = 0 → st.besti = alo ∧ st.bestj = blo

/-- The within-row version of the invariant (the row being processed is row
`alo + m`, so sizes may reach `m + 1`). -/
structure RowInv (alo blo bhi m : Nat) (st : DPState) : Prop where
  jlen_le : ∀ x, st.j2len x ≤ m + 1
  jlen_pos : ∀ x, st.j2len x ≠ 0 → blo ≤ x ∧ x < bhi ∧ st.j2len x ≤ x + 1 - blo
  bi_ge : alo ≤ st.besti
  bj_ge : blo ≤ st.bestj
  bik : st.besti + st.bestsize ≤ alo + (m + 1)
  bjk : st.bestsize ≠ 0 → st.bestj + st.bestsize ≤ bhi
  bz : st.bestsize = 0 → st.besti = alo ∧ st.bestj = blo

/-- The concrete element of the C4 counterexample: raw inner text is 201
characters (`"hello"` followed by 196 spaces), trimmed inner text is
`"hello"`. -/
def c4el : PWElement :=
  ⟨"hello" ++ String.mk (List.replicate 196 ' '), fun _ => "",
    ⟨"//p[1]", 1, "p", "p", "hello", []⟩⟩

def emptyQuery : PWQueryResult := ⟨0, ⟨"", 0, "", "", "", []⟩⟩

def c4page : PWPage :=
  ⟨fun _ => emptyQuery, fun _ _ => emptyQuery, fun _ => emptyQuery,
    fun _ => emptyQuery, fun _ => [c4el]⟩

/-- Witness element/page for the amended C4 theorem: a short text for which
a candidate is emitted. -/
def c10el : PWElement := ⟨"x", fun _ => "", ⟨"//p[1]", 1, "p", "p", "x", []⟩⟩

def c10page : PWPage :=
  ⟨fun _ => emptyQuery, fun _ _ => emptyQuery, fun _ => emptyQuery,
    fun _ => emptyQuery, fun _ => [c10el]⟩

def c1wEl : DomElement := ⟨5, "BUTTON", [("id", "login-btn")], "Login", none⟩

def c1wDoc : DocEnv := ⟨fun s => if s = "//button[@id='login-btn']" then [5] else []⟩

def c1cexEl : DomElement := ⟨0, "DIV", [("id", "a:b"), ("data-testid", "x")], "", none⟩

def c1cexDoc : DocEnv :=
  ⟨fun s => if s = "//div[@id='a:b']" then [0]
    else if s = "//div[@data-testid='x']" then [0] else []⟩

def c5wFresh : PageWorld := ⟨[], [("http://u", ("<head></head>old", 100))], 0, 200⟩

def c5wEmpty : PageWorld := ⟨[], [("http://u", ("", 100))], 0, 200⟩

def c5wExp : PageWorld := ⟨[], [("http://u", ("<head></head>old", 100))], 0, 5000⟩

def c5wSession : PageWorld := ⟨[("http://u", 7)], [("http://u", ("old", 0))], 9, 5000⟩

def c6w : PageWorld := ⟨[], [], 3, 50⟩

/-- A complete (lowercase-tag) script element. -/
def scriptEl (t body : Chars) : Chars :=
  scriptOpenPat ++ t ++ '>' :: (body ++ scriptClosePat)

/-- Well-formedness making `<script t>body</script>` one regex match:
the attribute chunk has no `>` and starts at a word boundary, and the body
contains no (case-insensitive) `</script>`. -/
def WfScript (t body : Chars) : Prop :=
  (∀ c ∈ t, c ≠ '>') ∧
  t.head?.all (fun c => !isWordChar c) = true ∧
  occursCI scriptClosePat body = false

/-- HTML assembled as gap-segments interleaved with script elements. -/
def assembleScripts (a0 : Chars) : List (Chars × Chars × Chars) → Chars
  | [] => a0
  | (t, body, a) :: rest => a0 ++ scriptEl t body ++ assembleScripts a rest

/-- The same HTML with the script elements removed. -/
def assembleGaps (a0 : Chars) : List (Chars × Chars × Chars) → Chars
  | [] => a0
  | (_, _, a) :: rest => a0 ++ assembleGaps a rest

def c7nav : String → Option String := fun _ => none

def c7htmlA : String := "<head></head><p>ok</p>"

def c7wA : PageWorld := ⟨[], [("u", (c7htmlA, 100))], 0, 200⟩

def c7htmlB : String := "<base href=\"x\"><p>A</p><script>var a</script><p>B</p>"

def c7wB : PageWorld := ⟨[], [("v", (c7htmlB, 100))], 0, 200⟩

def c7a0 : Chars := ("<base href=\"x\"><p>A</p>").data

def c7parts : List (Chars × Chars × Chars) :=
  [([], ("var a").data, ("<p>B</p>").data)]

def c7chtml1 : String := "<html><body>hi</body></html>"

def c7cw1 : PageWorld := ⟨[], [("u1", (c7chtml1, 100))], 0, 200⟩

def c7chtml2 : String := "<head></head><script>alert(1)"

def c7cw2 : PageWorld := ⟨[], [("u2", (c7chtml2, 100))], 0, 200⟩

theorem firstKeyIdx_lt (p : List Candidate) (k : String × String)
    (h : ∃ d ∈ p, keyOf d = k) : firstKeyIdx p k < p.length := by
  refine List.findIdx_lt_length_of_exists ?_
  obtain ⟨d, hd, hk⟩ := h
  exact ⟨d, hd, by simp [hk]⟩

theorem firstKeyIdx_append (p : List Candidate) (c : Candidate) (k : String × String)
    (h : ∃ d ∈ p, keyOf d = k) : firstKeyIdx (p ++ [c]) k = firstKeyIdx p k := by
  have hlt := firstKeyIdx_lt p k h
  unfold firstKeyIdx at hlt ⊢
  rw [List.findIdx_append, if_pos hlt]

theorem firstKeyIdx_append_new (p : List Candidate) (c : Candidate)
    (h : ∀ d ∈ p, keyOf d ≠ keyOf c) :
    firstKeyIdx (p ++ [c]) (keyOf c) = p.length := by
  unfold firstKeyIdx
  rw [List.findIdx_append]
  have hlen : List.findIdx (fun d => decide (keyOf d = keyOf c)) p = p.length := by
    rw [List.findIdx_eq_length]
    intro d hd
    simpa using h d hd
  rw [hlen, if_neg (by omega), List.findIdx_cons]
  simp

/-- Keys of entries in the dict are keys of candidates in the prefix. -/
theorem DedupInv.key_mem {p seen} (h : DedupInv p seen) :
    ∀ q ∈ seen, ∃ d ∈ p, keyOf d = q.1 := by
  intro q hq
  obtain ⟨h1, _, h3⟩ := h.wf q hq
  exact ⟨q.2, h3, h1.symm⟩

/-- `updateAssoc` on a list whose leading segment avoids the key. -/
theorem updateAssoc_eq (k : String × String) (c v : Candidate)
    (s₁ s₂ : List ((String × String) × Candidate)) (h₁ : ∀ q ∈ s₁, q.1 ≠ k) :
    updateAssoc k c (s₁ ++ (k, v) :: s₂) =
      s₁ ++ (k, if v.confidence < c.confidence then c else v) :: s₂ := by
  induction s₁ with
  | nil =>
    by_cases hvc : v.confidence < c.confidence <;> simp [updateAssoc, hvc]
  | cons q s₁' ih =>
    have hq : q.1 ≠ k := h₁ q (by simp)
    obtain ⟨kq, vq⟩ := q
    simp only [List.cons_append, updateAssoc, if_neg hq]
    exact congrArg _ (ih (fun r hr => h₁ r (by simp [hr])))

/-- Any list containing the key decomposes at its first entry with that key. -/
theorem exists_key_split (k : String × String)
    (s : List ((String × String) × Candidate))
    (h : s.any (fun p => decide (p.1 = k))) :
    ∃ s₁ v s₂, s = s₁ ++ (k, v) :: s₂ ∧ ∀ q ∈ s₁, q.1 ≠ k := by
  induction s with
  | nil => simp at h
  | cons q s' ih =>
    by_cases hq : q.1 = k
    · exact ⟨[], q.2, s', by simp [← hq], by simp⟩
    · have h' : s'.any (fun p => decide (p.1 = k)) := by
        simp only [List.any_cons, Bool.or_eq_true, decide_eq_true_eq] at h
        rcases h with h | h
        · exact absurd h hq
        · exact h
      obtain ⟨s₁, v, s₂, heq, hrest⟩ := ih h'
      refine ⟨q :: s₁, v, s₂, by simp [heq], ?_⟩
      intro r hr
      rcases List.mem_cons.mp hr with h | h
      · exact h ▸ hq
      · exact hrest r h

theorem dedupStep_inv (p : List Candidate) (seen) (c : Candidate)
    (h : DedupInv p seen) : DedupInv (p ++ [c]) (dedupStep seen c) := by
  have keyTrans : ∀ q ∈ seen, firstKeyIdx (p ++ [c]) q.1 = firstKeyIdx p q.1 :=
    fun q hq => firstKeyIdx_append p c q.1 (h.key_mem q hq)
  have ordT : List.Pairwise
      (fun q r => firstKeyIdx (p ++ [c]) q.1 < firstKeyIdx (p ++ [c]) r.1) seen :=
    h.ord.imp_of_mem (fun ha hb hr => by rw [keyTrans _ ha, keyTrans _ hb]; exact hr)
  by_cases hx : c.xpath = ""
  · -- empty locator: dict unchanged
    refine ⟨by simpa [dedupStep, hx] using ordT, ?_, ?_, ?_⟩
    · intro q hq
      simp only [dedupStep, hx, if_pos rfl] at hq
      obtain ⟨h1, h2, h3⟩ := h.wf q hq
      exact ⟨h1, h2, List.mem_append_left _ h3⟩
    · intro d hd hne
      simp only [dedupStep, hx, if_pos rfl]
      rcases List.mem_append.mp hd with h' | h'
      · exact h.cover d h' hne
      · simp only [List.mem_singleton] at h'
        exact absurd (h' ▸ hx) hne
    · intro q hq d hd hk
      simp only [dedupStep, hx, if_pos rfl] at hq
      rcases List.mem_append.mp hd with h' | h'
      · exact h.maxc q hq d h' hk
      · simp only [List.mem_singleton] at h'
        obtain ⟨h1, h2, _⟩ := h.wf q hq
        exfalso
        have hkk : keyOf d = keyOf q.2 := by rw [hk, h1]
        have hxx : d.xpath = q.2.xpath := congrArg Prod.fst hkk
        exact h2 (by rw [← hxx, h', hx])
  · by_cases hp : seen.any (fun q => decide (q.1 = keyOf c))
    · -- key present: in-place update of the (unique) entry with the key
      obtain ⟨s₁, v, s₂, heq, hs₁⟩ := exists_key_split (keyOf c) seen hp
      have hstep : dedupStep seen c =
          s₁ ++ (keyOf c, if v.confidence < c.confidence then c else v) :: s₂ := by
        rw [dedupStep, if_neg hx, if_pos hp, heq, updateAssoc_eq _ _ _ _ _ hs₁]
      set w := if v.confidence < c.confidence then c else v with hw
      have hvmem : (keyOf c, v) ∈ seen := by rw [heq]; simp
      have hkdistinct : List.Pairwise (fun q r => q.1 ≠ r.1) seen :=
        h.ord.imp (fun hlt hkeq => by rw [hkeq] at hlt; omega)
      -- no other entry in s₁ or s₂ carries the key
      have hs₂ : ∀ q ∈ s₂, q.1 ≠ keyOf c := by
        intro q hq
        have := (List.pairwise_append.mp (heq ▸ hkdistinct)).2.1
        exact fun hqk => (List.rel_of_pairwise_cons this hq) (hqk ▸ rfl)
      have hwwf : keyOf w = keyOf c ∧ w.xpath ≠ "" ∧ w ∈ p ++ [c] := by
        by_cases hc : v.confidence < c.confidence
        · rw [hw, if_pos hc]
          exact ⟨rfl, hx, List.mem_append_right _ (by simp)⟩
        · rw [hw, if_neg hc]
          obtain ⟨h1, h2, h3⟩ := h.wf _ hvmem
          exact ⟨h1.symm, h2, List.mem_append_left _ h3⟩
      refine ⟨?_, ?_, ?_, ?_⟩
      · -- key list unchanged, indices transported
        have : List.Pairwise
            (fun q r => firstKeyIdx (p ++ [c]) q.1 < firstKeyIdx (p ++ [c]) r.1)
            (s₁ ++ (keyOf c, v) :: s₂) := heq ▸ ordT
        rw [hstep]
        rw [List.pairwise_append] at this ⊢
        refine ⟨this.1, ?_, ?_⟩
        · rw [List.pairwise_cons] at this ⊢
          exact ⟨fun r hr => (this.2.1).1 r hr, (this.2.1).2⟩
        · intro a ha b hb
          rcases List.mem_cons.mp hb with h' | h'
          · have := this.2.2 a ha (keyOf c, v) (by simp)
            simpa [h'] using this
          · exact this.2.2 a ha b (by simp [h'])
      · intro q hq
        rw [hstep] at hq
        rcases List.mem_append.mp hq with h' | h'
        · obtain ⟨h1, h2, h3⟩ := h.wf q (heq ▸ List.mem_append_left _ h')
          exact ⟨h1, h2, List.mem_append_left _ h3⟩
        · rcases List.mem_cons.mp h' with h'' | h''
          · rw [h'']
            exact ⟨hwwf.1.symm, hwwf.2.1, hwwf.2.2⟩
          · obtain ⟨h1, h2, h3⟩ := h.wf q (heq ▸ by simp [h''])
            exact ⟨h1, h2, List.mem_append_left _ h3⟩
      · intro d hd hne
        rcases List.mem_append.mp hd with h' | h'
        · obtain ⟨q, hq, hqk⟩ := h.cover d h' hne
          rw [heq] at hq
          rcases List.mem_append.mp hq with h'' | h''
          · exact ⟨q, by rw [hstep]; exact List.mem_append_left _ h'', hqk⟩
          · rcases List.mem_cons.mp h'' with hm3 | hm3
            · refine ⟨(keyOf c, w), by rw [hstep]; simp, ?_⟩
              rw [← hqk, hm3]
            · exact ⟨q, by rw [hstep]; simp [hm3], hqk⟩
        · simp only [List.mem_singleton] at h'
          subst h'
          exact ⟨(keyOf d, w), by rw [hstep]; simp, rfl⟩
      · intro q hq d hd hk
        rw [hstep] at hq
        have hd' : d ∈ p ∨ d = c := by
          rcases List.mem_append.mp hd with h' | h'
          · exact Or.inl h'
          · exact Or.inr (by simpa using h')
        rcases List.mem_append.mp hq with h' | h'
        · -- entry in s₁: key differs from keyOf c
          have hqk : q.1 ≠ keyOf c := hs₁ q h'
          have hqseen : q ∈ seen := heq ▸ List.mem_append_left _ h'
          rcases hd' with h'' | h''
          · exact h.maxc q hqseen d h'' hk
          · exact absurd (h'' ▸ hk).symm hqk
        · rcases List.mem_cons.mp h' with h'' | h''
          · -- the updated entry
            rw [h'']
            simp only
            have hkc : keyOf d = keyOf c := by
              have : q.1 = keyOf c := by rw [h'']
              rw [hk, this]
            rcases hd' with h'' | h''
            · have hdv : d.confidence ≤ v.confidence :=
                h.maxc _ hvmem d h'' hkc
              by_cases hc : v.confidence < c.confidence
              · rw [hw, if_pos hc]; linarith
              · rw [hw, if_neg hc]; exact hdv
            · rw [h'']
              by_cases hc : v.confidence < c.confidence
              · rw [hw, if_pos hc]
              · rw [hw, if_neg hc]; linarith
          · -- entry in s₂: key differs from keyOf c
            have hqk : q.1 ≠ keyOf c := hs₂ q h''
            have hqseen : q ∈ seen := heq ▸ by simp [h'']
            rcases hd' with hm3 | hm3
            · exact h.maxc q hqseen d hm3 hk
            · exact absurd (hm3 ▸ hk).symm hqk
    · -- new key: appended at the end
      have hstep : dedupStep seen c = seen ++ [(keyOf c, c)] := by
        rw [dedupStep, if_neg hx, if_neg hp]
      have habsent : ∀ d ∈ p, keyOf d ≠ keyOf c := by
        intro d hd hdk
        by_cases hdx : d.xpath = ""
        · have : d.xpath = c.xpath := congrArg Prod.fst hdk
          exact hx (by rw [← this, hdx])
        · obtain ⟨q, hq, hqk⟩ := h.cover d hd hdx
          exact hp (List.any_eq_true.mpr ⟨q, hq, by simp [hqk, hdk]⟩)
      refine ⟨?_, ?_, ?_, ?_⟩
      · rw [hstep, List.pairwise_append]
        refine ⟨ordT, by simp, ?_⟩
        intro a ha b hb
        simp only [List.mem_singleton] at hb
        subst hb
        simp only
        rw [keyTrans a ha, firstKeyIdx_append_new p c habsent]
        exact firstKeyIdx_lt p a.1 (h.key_mem a ha)
      · intro q hq
        rw [hstep] at hq
        rcases List.mem_append.mp hq with h' | h'
        · obtain ⟨h1, h2, h3⟩ := h.wf q h'
          exact ⟨h1, h2, List.mem_append_left _ h3⟩
        · simp only [List.mem_singleton] at h'
          subst h'
          exact ⟨rfl, hx, List.mem_append_right _ (by simp)⟩
      · intro d hd hne
        rcases List.mem_append.mp hd with h' | h'
        · obtain ⟨q, hq, hqk⟩ := h.cover d h' hne
          exact ⟨q, by rw [hstep]; exact List.mem_append_left _ hq, hqk⟩
        · simp only [List.mem_singleton] at h'
          subst h'
          exact ⟨(keyOf d, d), by rw [hstep]; simp, rfl⟩
      · intro q hq d hd hk
        rw [hstep] at hq
        rcases List.mem_append.mp hq with h' | h'
        · rcases List.mem_append.mp hd with h'' | h''
          · exact h.maxc q h' d h'' hk
          · simp only [List.mem_singleton] at h''
            subst h''
            exfalso
            obtain ⟨q2, hq2, hq2k⟩ := h.key_mem q h'
            exact habsent q2 hq2 (by rw [hq2k, ← hk])
        · simp only [List.mem_singleton] at h'
          subst h'
          rcases List.mem_append.mp hd with h'' | h''
          · exact absurd hk (habsent d h'')
          · simp only [List.mem_singleton] at h''
            subst h''
            simp

theorem dedup_inv_aux (rest p : List Candidate) (seen)
    (h : DedupInv p seen) : DedupInv (p ++ rest) (rest.foldl dedupStep seen) := by
  induction rest generalizing p seen with
  | nil => simpa using h
  | cons c rest' ih =>
    have := ih (p ++ [c]) (dedupStep seen c) (dedupStep_inv p seen c h)
    simpa using this

/-- The dedup dict over the full input satisfies the invariant. -/
theorem dedup_inv (l : List Candidate) : DedupInv l (dedup l) := by
  have h0 : DedupInv [] [] :=
    ⟨List.Pairwise.nil, by simp, by simp, by simp⟩
  simpa [dedup] using dedup_inv_aux l [] [] h0

/-! ### Ranker: the stable descending sort -/

theorem insertDesc_perm (c : Candidate) (l : List Candidate) :
    (insertDesc c l).Perm (c :: l) := by
  induction l with
  | nil => exact List.Perm.refl _
  | cons x xs ih =>
    by_cases hx : x.confidence ≤ c.confidence
    · rw [insertDesc, if_pos hx]
    · rw [insertDesc, if_neg hx]
      exact (ih.cons x).trans (List.Perm.swap c x xs)

theorem sortDesc_perm (l : List Candidate) : (sortDesc l).Perm l := by
  induction l with
  | nil => exact List.Perm.refl _
  | cons c rest ih =>
    rw [sortDesc]
    exact (insertDesc_perm c (sortDesc rest)).trans (ih.cons c)

theorem mem_insertDesc {y c : Candidate} {l : List Candidate} :
    y ∈ insertDesc c l ↔ y = c ∨ y ∈ l := by
  rw [(insertDesc_perm c l).mem_iff, List.mem_cons]

theorem insertDesc_sorted (c : Candidate) (l : List Candidate)
    (h : l.Pairwise (fun a b => b.confidence ≤ a.confidence)) :
    (insertDesc c l).Pairwise (fun a b => b.confidence ≤ a.confidence) := by
  induction l with
  | nil => simp [insertDesc]
  | cons x xs ih =>
    rw [List.pairwise_cons] at h
    by_cases hx : x.confidence ≤ c.confidence
    · rw [insertDesc, if_pos hx]
      refine List.pairwise_cons.mpr ⟨?_, List.pairwise_cons.mpr h⟩
      intro y hy
      rcases List.mem_cons.mp hy with rfl | hy'
      · exact hx
      · exact le_trans (h.1 y hy') hx
    · rw [insertDesc, if_neg hx]
      refine List.pairwise_cons.mpr ⟨?_, ih h.2⟩
      intro y hy
      rcases mem_insertDesc.mp hy with rfl | hy'
      · exact (not_le.mp hx).le
      · exact h.1 y hy'

theorem sortDesc_sorted (l : List Candidate) :
    (sortDesc l).Pairwise (fun a b => b.confidence ≤ a.confidence) := by
  induction l with
  | nil => simp [sortDesc]
  | cons c rest ih => exact insertDesc_sorted c (sortDesc rest) ih

/-- Stability of the insertion step: any relation that is vacuous across
strictly different confidences survives the insertion. -/
theorem insertDesc_stable (Q : Candidate → Candidate → Prop) (c : Candidate)
    (l : List Candidate)
    (h : l.Pairwise (fun a b => a.confidence = b.confidence → Q a b))
    (hc : ∀ x ∈ l, c.confidence = x.confidence → Q c x) :
    (insertDesc c l).Pairwise (fun a b => a.confidence = b.confidence → Q a b) := by
  induction l with
  | nil => simp [insertDesc]
  | cons x xs ih =>
    rw [List.pairwise_cons] at h
    by_cases hx : x.confidence ≤ c.confidence
    · rw [insertDesc, if_pos hx]
      refine List.pairwise_cons.mpr ⟨?_, List.pairwise_cons.mpr h⟩
      intro y hy heq
      exact hc y hy heq
    · rw [insertDesc, if_neg hx]
      refine List.pairwise_cons.mpr
        ⟨?_, ih h.2 (fun y hy => hc y (List.mem_cons_of_mem x hy))⟩
      intro y hy heq
      rcases mem_insertDesc.mp hy with rfl | hy'
      · exact absurd heq.le hx
      · exact h.1 y hy' heq

/-- Stability of the full sort. -/
theorem sortDesc_stable (Q : Candidate → Candidate → Prop) (l : List Candidate)
    (h : l.Pairwise (fun a b => a.confidence = b.confidence → Q a b)) :
    (sortDesc l).Pairwise (fun a b => a.confidence = b.confidence → Q a b) := by
  induction l with
  | nil => simp [sortDesc]
  | cons c rest ih =>
    rw [List.pairwise_cons] at h
    refine insertDesc_stable Q c (sortDesc rest) (ih h.2) ?_
    intro x hx heq
    exact h.1 x ((sortDesc_perm rest).mem_iff.mp hx) heq

/-! ### Ranker: rank assignment -/

theorem snd_mem_enumFrom {p : Nat × Candidate} :
    ∀ (n : Nat) (l : List Candidate), p ∈ List.enumFrom n l → p.2 ∈ l := by
  intro n l
  induction l generalizing n with
  | nil => simp
  | cons x xs ih =>
    intro hp
    rw [List.enumFrom_cons] at hp
    rcases List.mem_cons.mp hp with h | h
    · rw [h]; exact List.mem_cons_self x xs
    · exact List.mem_cons_of_mem x (ih (n + 1) h)

theorem mem_assignRanks {c : Candidate} {l : List Candidate}
    (h : c ∈ assignRanks l) :
    ∃ d ∈ l, c = { d with rank := c.rank } := by
  obtain ⟨p, hp, hc⟩ := List.mem_map.mp h
  refine ⟨p.2, snd_mem_enumFrom 0 l (by simpa [List.enum] using hp), ?_⟩
  rw [← hc]

theorem assignRanks_enumFrom_ranks :
    ∀ (l : List Candidate) (n : Nat),
    ((List.enumFrom n l).map (fun p => ({ p.2 with rank := p.1 + 1 } : Candidate))).map
        (fun c => c.rank) =
      List.range' (n + 1) l.length := by
  intro l
  induction l with
  | nil => simp
  | cons x xs ih =>
    intro n
    rw [List.enumFrom_cons]
    simp only [List.map_cons, List.length_cons, List.range'_succ]
    exact congrArg _ (ih (n + 1))

theorem assignRanks_ranks (l : List Candidate) :
    (assignRanks l).map (fun c => c.rank) = List.range' 1 l.length := by
  have := assignRanks_enumFrom_ranks l 0
  simpa [assignRanks, List.enum] using this

theorem assignRanks_length (l : List Candidate) :
    (assignRanks l).length = l.length := by
  have := congrArg List.length (assignRanks_ranks l)
  simpa using this

/-- Rank assignment only rewrites the `rank` field, so any pairwise relation
that ignores `rank` is transported. -/
theorem assignRanks_pairwise (R : Candidate → Candidate → Prop)
    (hR : ∀ (a b : Candidate) (i j : Nat),
      R a b → R { a with rank := i } { b with rank := j })
    (l : List Candidate) (h : l.Pairwise R) : (assignRanks l).Pairwise R := by
  have henum : ∀ (n : Nat), (List.enumFrom n l).Pairwise (fun p q => R p.2 q.2) := by
    induction l with
    | nil => intro n; simp
    | cons x xs ih =>
      intro n
      rw [List.pairwise_cons] at h
      rw [List.enumFrom_cons, List.pairwise_cons]
      exact ⟨fun q hq => h.1 q.2 (snd_mem_enumFrom (n + 1) xs hq), (ih h.2) (n + 1)⟩
  rw [assignRanks, List.pairwise_map]
  refine (henum 0).imp ?_
  · intro p q hpq
    exact hR p.2 q.2 (p.1 + 1) (q.1 + 1) hpq

/-- Everything in the ranked output descends from an entry of the dedup
dict (with only its `rank` field rewritten). -/
theorem mem_rank_candidates {c : Candidate} {l : List Candidate} {n : Nat}
    (h : c ∈ rank_candidates l n) :
    ∃ q ∈ dedup l, c = { q.2 with rank := c.rank } := by
  rw [rank_candidates] at h
  obtain ⟨d, hd, hc⟩ := mem_assignRanks h
  have hd1 : d ∈ sortDesc ((dedup l).map (·.2)) := List.take_subset n _ hd
  have hd2 : d ∈ (dedup l).map (·.2) :=
    (sortDesc_perm ((dedup l).map (·.2))).mem_iff.mp hd1
  obtain ⟨q, hq, hqd⟩ := List.mem_map.mp hd2
  exact ⟨q, hq, by rw [hc, hqd]⟩

/-- C9: no candidate with an empty locator ever appears in the ranked
output: the ranker excludes empty-locator candidates during dedup, so every
candidate returned by `_rank_candidates` (and hence by `find_xpath`) has a
non-empty locator. -/
theorem rank_candidates_excludes_empty_locators :
    ∀ (l : List Candidate) (n : Nat),
      (∀ c ∈ rank_candidates l n, c.xpath ≠ "") ∧
      (∀ (page : PWPage) (searchText elementType : String),
        ∀ c ∈ find_xpath page searchText elementType n, c.xpath ≠ "") := by
  intro l n
  have main : ∀ (l' : List Candidate), ∀ c ∈ rank_candidates l' n, c.xpath ≠ "" := by
    intro l' c hc
    obtain ⟨q, hq, hcq⟩ := mem_rank_candidates hc
    have hwf := (dedup_inv l').wf q hq
    have : c.xpath = q.2.xpath := by rw [hcq]
    rw [this]
    exact hwf.2.1
  exact ⟨main l, fun page s t c hc => main _ c (by simpa [find_xpath] using hc)⟩

/-- Witness for C9 at a concrete input. -/
theorem rank_candidates_excludes_empty_locators_witness :
    (⟨"//a", 1, "", "a", "t", [], 1/2, "s", 1⟩ : Candidate) ∈
        rank_candidates [⟨"//a", 1, "", "a", "t", [], 1/2, "s", 0⟩] 5 ∧
      (⟨"//a", 1, "", "a", "t", [], 1/2, "s", 1⟩ : Candidate).xpath ≠ "" := by
  have hmem : (⟨"//a", 1, "", "a", "t", [], 1/2, "s", 1⟩ : Candidate) ∈
      rank_candidates [⟨"//a", 1, "", "a", "t", [], 1/2, "s", 0⟩] 5 := by
    simp [rank_candidates, dedup, dedupStep, keyOf, sortDesc, insertDesc,
      assignRanks, List.enum, List.enumFrom]
  exact ⟨hmem,
    (rank_candidates_excludes_empty_locators
      [⟨"//a", 1, "", "a", "t", [], 1/2, "s", 0⟩] 5).1 _ hmem⟩

/-- C2: deduplication keeps, for each `(locator, tag)` key present with a
non-empty locator, exactly one entry, and that entry carries the maximum
confidence of the key group (so of two candidates with the same key and
different confidences, the higher-confidence one survives). -/
theorem dedup_keeps_highest_confidence :
    ∀ (l : List Candidate) (k : String × String),
      (∃ c ∈ l, keyOf c = k ∧ c.xpath ≠ "") →
      ∃ p, p ∈ dedup l ∧ p.1 = k ∧ p.2 ∈ l ∧ keyOf p.2 = k ∧
        (∀ q ∈ dedup l, q.1 = k → q = p) ∧
        (∀ c ∈ l, keyOf c = k → c.confidence ≤ p.2.confidence) := by
  intro l k ⟨c, hc, hck, hcx⟩
  obtain ⟨q, hq, hqk⟩ := (dedup_inv l).cover c hc hcx
  have hq1 : q.1 = k := hqk.trans hck
  have hwf := (dedup_inv l).wf q hq
  have hdist : List.Pairwise (fun a b => a.1 ≠ b.1) (dedup l) :=
    (dedup_inv l).ord.imp (fun hlt hkeq => by rw [hkeq] at hlt; omega)
  refine ⟨q, hq, hq1, hwf.2.2, by rw [← hwf.1, hq1], ?_, ?_⟩
  · intro q' hq' hq'k
    by_contra hne
    have hsymm : Symmetric (fun (a b : (String × String) × Candidate) => a.1 ≠ b.1) := by
      intro a b h hba
      exact h hba.symm
    exact (List.Pairwise.forall hsymm hdist hq' hq hne) (hq'k.trans hq1.symm)
  · intro d hd hdk
    exact (dedup_inv l).maxc q hq d hd (hdk.trans hq1.symm)

/-- Witness for C2 at the spec's example: two candidates with the same
locator `//a` and tag, confidences 0.5 and 0.9. -/
theorem dedup_keeps_highest_confidence_witness :
    (∃ c ∈ [(⟨"//a", 1, "", "a", "", [], 1/2, "s", 0⟩ : Candidate),
            ⟨"//a", 1, "", "a", "", [], 9/10, "s", 0⟩],
        keyOf c = ("//a", "a") ∧ c.xpath ≠ "") ∧
      (∃ p, p ∈ dedup [(⟨"//a", 1, "", "a", "", [], 1/2, "s", 0⟩ : Candidate),
            ⟨"//a", 1, "", "a", "", [], 9/10, "s", 0⟩] ∧
        p.1 = ("//a", "a") ∧
        p.2 ∈ [(⟨"//a", 1, "", "a", "", [], 1/2, "s", 0⟩ : Candidate),
            ⟨"//a", 1, "", "a", "", [], 9/10, "s", 0⟩] ∧
        keyOf p.2 = ("//a", "a") ∧
        (∀ q ∈ dedup [(⟨"//a", 1, "", "a", "", [], 1/2, "s", 0⟩ : Candidate),
            ⟨"//a", 1, "", "a", "", [], 9/10, "s", 0⟩], q.1 = ("//a", "a") → q = p) ∧
        (∀ c ∈ [(⟨"//a", 1, "", "a", "", [], 1/2, "s", 0⟩ : Candidate),
            ⟨"//a", 1, "", "a", "", [], 9/10, "s", 0⟩],
          keyOf c = ("//a", "a") → c.confidence ≤ p.2.confidence)) := by
  refine ⟨⟨⟨"//a", 1, "", "a", "", [], 1/2, "s", 0⟩, by simp, by simp [keyOf]⟩, ?_⟩
  exact dedup_keeps_highest_confidence _ _
    ⟨⟨"//a", 1, "", "a", "", [], 1/2, "s", 0⟩, by simp, by simp [keyOf]⟩

/-- C3 (amended): the ranked output has length at most `n`, is sorted by
confidence descending, its ranks are the contiguous sequence `1, ..., k`,
and candidates of equal confidence appear in order of the first occurrence
of their `(locator, tag)` key in the input. -/
theorem rank_candidates_ordering :
    ∀ (l : List Candidate) (n : Nat),
      (rank_candidates l n).length ≤ n ∧
      (rank_candidates l n).map (fun c => c.rank) =
        List.range' 1 (rank_candidates l n).length ∧
      (rank_candidates l n).Pairwise (fun a b => b.confidence ≤ a.confidence) ∧
      (rank_candidates l n).Pairwise (fun a b => a.confidence = b.confidence →
        firstKeyIdx l (keyOf a) < firstKeyIdx l (keyOf b)) := by
  intro l n
  have hlen : (rank_candidates l n).length ≤ n := by
    rw [rank_candidates, assignRanks_length, List.length_take]
    exact min_le_left _ _
  refine ⟨hlen, ?_, ?_, ?_⟩
  · rw [rank_candidates, assignRanks_ranks, assignRanks_length]
  · rw [rank_candidates]
    refine assignRanks_pairwise _ (fun a b i j h => h) _ ?_
    exact List.Pairwise.sublist (List.take_sublist n _) (sortDesc_sorted _)
  · rw [rank_candidates]
    refine assignRanks_pairwise _ (fun a b i j h => h) _ ?_
    refine List.Pairwise.sublist (List.take_sublist n _) ?_
    refine sortDesc_stable _ _ ?_
    rw [List.pairwise_map]
    refine ((dedup_inv l).ord).imp_of_mem ?_
    intro q r hq hr hlt _
    have hkq : keyOf q.2 = q.1 := ((dedup_inv l).wf q hq).1.symm
    have hkr : keyOf r.2 = r.1 := ((dedup_inv l).wf r hr).1.symm
    rw [hkq, hkr]
    exact hlt

/-- Counterexample for C3 as stated: candidates `B` (input position 1) and
`C` (input position 2) tie at confidence 0.7, yet the output lists `C`
before `B` — the dict keeps `C` at the position where its key `//a` was
first inserted (by the earlier candidate `A`), so ties follow key-first-
occurrence order, not the discovery order of the surviving candidates. -/
theorem rank_candidates_tie_order_cex :
    (rank_candidates
        [⟨"//a", 1, "", "a", "A", [], 1/2, "s", 0⟩,
         ⟨"//b", 1, "", "a", "B", [], 7/10, "s", 0⟩,
         ⟨"//a", 1, "", "a", "C", [], 7/10, "s", 0⟩] 5).map
        (fun c => (c.text, c.confidence, c.rank)) =
      [("C", 7/10, 1), ("B", 7/10, 2)] ∧
    List.findIdx (fun c => c.text == "B")
        [(⟨"//a", 1, "", "a", "A", [], 1/2, "s", 0⟩ : Candidate),
         ⟨"//b", 1, "", "a", "B", [], 7/10, "s", 0⟩,
         ⟨"//a", 1, "", "a", "C", [], 7/10, "s", 0⟩] <
      List.findIdx (fun c => c.text == "C")
        [(⟨"//a", 1, "", "a", "A", [], 1/2, "s", 0⟩ : Candidate),
         ⟨"//b", 1, "", "a", "B", [], 7/10, "s", 0⟩,
         ⟨"//a", 1, "", "a", "C", [], 7/10, "s", 0⟩] := by
  constructor
  · norm_num [rank_candidates, dedup, dedupStep, updateAssoc, keyOf, sortDesc,
      insertDesc, assignRanks, List.enum, List.enumFrom]
  · decide

/-! ### difflib: bounds on the matching total -/

theorem rowStep_inv (alo blo bhi m : Nat) (old : Nat → Nat) (i j : Nat)
    (hi : i = alo + m)
    (hold_le : ∀ x, old x ≤ m)
    (hold_pos : ∀ x, old x ≠ 0 → blo ≤ x ∧ x < bhi ∧ old x ≤ x + 1 - blo)
    (hj : blo ≤ j ∧ j < bhi) (st : DPState) (h : RowInv alo blo bhi m st) :
    RowInv alo blo bhi m (rowStep old i st j) := by
  rw [rowStep]
  set k := (if j = 0 then 0 else old (j - 1)) + 1 with hk
  have hk_le : k ≤ m + 1 := by
    rw [hk]
    by_cases hj0 : j = 0
    · simp [hj0]
    · have := hold_le (j - 1)
      simp [hj0]
      omega
  have hk_j : k ≤ j + 1 - blo := by
    rw [hk]
    by_cases hj0 : j = 0
    · simp [hj0]
      omega
    · by_cases hz : old (j - 1) = 0
      · simp [hj0, hz]
        omega
      · have := hold_pos (j - 1) hz
        simp [hj0]
        omega
  have hjlen_le : ∀ x, (fun x => if x = j then k else st.j2len x) x ≤ m + 1 := by
    intro x
    by_cases hx : x = j
    · simp [hx, hk_le]
    · simp [hx]
      exact h.jlen_le x
  have hjlen_pos : ∀ x, (fun x => if x = j then k else st.j2len x) x ≠ 0 →
      blo ≤ x ∧ x < bhi ∧ (fun x => if x = j then k else st.j2len x) x ≤ x + 1 - blo := by
    intro x hx
    by_cases hxj : x = j
    · subst hxj
      simp only [if_pos rfl] at hx ⊢
      exact ⟨hj.1, hj.2, hk_j⟩
    · simp only [if_neg hxj] at hx ⊢
      exact h.jlen_pos x hx
  by_cases hbest : st.bestsize < k
  · rw [if_pos hbest]
    refine ⟨hjlen_le, hjlen_pos, ?_, ?_, ?_, ?_, ?_⟩ <;> simp only
    · omega
    · omega
    · omega
    · intro _; omega
    · intro h0; omega
  · rw [if_neg hbest]
    exact ⟨hjlen_le, hjlen_pos, h.bi_ge, h.bj_ge, h.bik, h.bjk, h.bz⟩

theorem rowFold_inv (alo blo bhi m : Nat) (old : Nat → Nat) (i : Nat)
    (hi : i = alo + m)
    (hold_le : ∀ x, old x ≤ m)
    (hold_pos : ∀ x, old x ≠ 0 → blo ≤ x ∧ x < bhi ∧ old x ≤ x + 1 - blo) :
    ∀ (js : List Nat), (∀ j ∈ js, blo ≤ j ∧ j < bhi) →
    ∀ (st : DPState), RowInv alo blo bhi m st →
      RowInv alo blo bhi m (js.foldl (rowStep old i) st) := by
  intro js
  induction js with
  | nil => intro _ st h; exact h
  | cons j js' ih =>
    intro hjs st h
    rw [List.foldl_cons]
    exact ih (fun x hx => hjs x (List.mem_cons_of_mem j hx))
      _ (rowStep_inv alo blo bhi m old i j hi hold_le hold_pos
          (hjs j (List.mem_cons_self j js')) st h)

theorem dpRows_append_one (a b : Chars) (blo bhi : Nat) (rows : List Nat) (i : Nat)
    (init : DPState) :
    dpRows a b blo bhi (rows ++ [i]) init =
      ((b2j b (aAt a i)).filter (fun j => decide (blo ≤ j) && decide (j < bhi))).foldl
        (rowStep (dpRows a b blo bhi rows init).j2len i)
        ⟨fun _ => 0, (dpRows a b blo bhi rows init).besti,
          (dpRows a b blo bhi rows init).bestj,
          (dpRows a b blo bhi rows init).bestsize⟩ := by
  rw [dpRows, List.foldl_append]
  rfl

theorem dpRows_inv (a b : Chars) (alo blo bhi : Nat) :
    ∀ n, DPInv alo blo bhi n
      (dpRows a b blo bhi (List.range' alo n) ⟨fun _ => 0, alo, blo, 0⟩) := by
  intro n
  induction n with
  | zero =>
    refine ⟨?_, ?_, ?_, ?_, ?_, ?_, ?_⟩ <;> simp [dpRows]
  | succ m ih =>
    rw [List.range'_1_concat, dpRows_append_one]
    set st := dpRows a b blo bhi (List.range' alo m) ⟨fun _ => 0, alo, blo, 0⟩ with hst
    have hrow : RowInv alo blo bhi m
        (((b2j b (aAt a (alo + m))).filter
            (fun j => decide (blo ≤ j) && decide (j < bhi))).foldl
          (rowStep st.j2len (alo + m)) ⟨fun _ => 0, st.besti, st.bestj, st.bestsize⟩) := by
      refine rowFold_inv alo blo bhi m st.j2len (alo + m) rfl ih.jlen_le ih.jlen_pos _ ?_
        _ ?_
      · intro j hjmem
        have := List.mem_filter.mp hjmem
        simp only [Bool.and_eq_true, decide_eq_true_eq] at this
        exact this.2
      · refine ⟨fun x => by simp, fun x hx => absurd rfl hx, ih.bi_ge, ih.bj_ge, ?_,
          ih.bjk, ih.bz⟩
        show st.besti + st.bestsize ≤ alo + (m + 1)
        have := ih.bik
        omega
    exact ⟨hrow.jlen_le, hrow.jlen_pos, hrow.bi_ge, hrow.bj_ge, hrow.bik,
      hrow.bjk, hrow.bz⟩

theorem extLeftF_spec (a b : Chars) (alo blo : Nat) :
    ∀ (fuel bi bj bk : Nat), alo ≤ bi → blo ≤ bj →
      alo ≤ (extLeftF a b alo blo fuel (bi, bj, bk)).1 ∧
      blo ≤ (extLeftF a b alo blo fuel (bi, bj, bk)).2.1 ∧
      (extLeftF a b alo blo fuel (bi, bj, bk)).1 +
        (extLeftF a b alo blo fuel (bi, bj, bk)).2.2 = bi + bk ∧
      (extLeftF a b alo blo fuel (bi, bj, bk)).2.1 +
        (extLeftF a b alo blo fuel (bi, bj, bk)).2.2 = bj + bk ∧
      bk ≤ (extLeftF a b alo blo fuel (bi, bj, bk)).2.2 := by
  intro fuel
  induction fuel with
  | zero => intro bi bj bk h1 h2; exact ⟨h1, h2, rfl, rfl, le_refl _⟩
  | succ f ih =>
    intro bi bj bk h1 h2
    rw [extLeftF]
    by_cases hg : alo < bi ∧ blo < bj ∧ aAt a (bi - 1) = aAt b (bj - 1)
    · rw [if_pos hg]
      have := ih (bi - 1) (bj - 1) (bk + 1) (by omega) (by omega)
      refine ⟨this.1, this.2.1, ?_, ?_, ?_⟩ <;> omega
    · rw [if_neg hg]
      exact ⟨h1, h2, rfl, rfl, le_refl _⟩

theorem extRightF_spec (a b : Chars) (ahi bhi bi bj : Nat) :
    ∀ (fuel bk : Nat),
      bk ≤ extRightF a b ahi bhi bi bj fuel bk ∧
      (extRightF a b ahi bhi bi bj fuel bk = bk ∨
        (bi + extRightF a b ahi bhi bi bj fuel bk ≤ ahi ∧
         bj + extRightF a b ahi bhi bi bj fuel bk ≤ bhi)) := by
  intro fuel
  induction fuel with
  | zero => intro bk; exact ⟨le_refl _, Or.inl rfl⟩
  | succ f ih =>
    intro bk
    rw [extRightF]
    by_cases hg : bi + bk < ahi ∧ bj + bk < bhi ∧ aAt a (bi + bk) = aAt b (bj + bk)
    · rw [if_pos hg]
      have := ih (bk + 1)
      refine ⟨by omega, ?_⟩
      rcases this.2 with h | h
      · exact Or.inr (by omega)
      · exact Or.inr h
    · rw [if_neg hg]
      exact ⟨le_refl _, Or.inl rfl⟩

/-- The block returned by `find_longest_match` lies inside the requested
range (when nonempty). -/
theorem flm_bounds (a b : Chars) (alo ahi blo bhi : Nat) :
    alo ≤ (flm a b alo ahi blo bhi).1 ∧
    blo ≤ (flm a b alo ahi blo bhi).2.1 ∧
    ((flm a b alo ahi blo bhi).2.2 ≠ 0 →
      (flm a b alo ahi blo bhi).1 + (flm a b alo ahi blo bhi).2.2 ≤ ahi ∧
      (flm a b alo ahi blo bhi).2.1 + (flm a b alo ahi blo bhi).2.2 ≤ bhi) := by
  have hdp := dpRows_inv a b alo blo bhi (ahi - alo)
  set st := dpRows a b blo bhi (List.range' alo (ahi - alo)) ⟨fun _ => 0, alo, blo, 0⟩
    with hst
  have e1 : (flm a b alo ahi blo bhi).1 =
      (extLeftF a b alo blo st.besti (st.besti, st.bestj, st.bestsize)).1 := rfl
  have e2 : (flm a b alo ahi blo bhi).2.1 =
      (extLeftF a b alo blo st.besti (st.besti, st.bestj, st.bestsize)).2.1 := rfl
  have e3 : (flm a b alo ahi blo bhi).2.2 =
      extRightF a b ahi bhi
        (extLeftF a b alo blo st.besti (st.besti, st.bestj, st.bestsize)).1
        (extLeftF a b alo blo st.besti (st.besti, st.bestj, st.bestsize)).2.1 ahi
        (extLeftF a b alo blo st.besti (st.besti, st.bestj, st.bestsize)).2.2 := rfl
  obtain ⟨hl1, hl2, hl3, hl4, hl5⟩ :=
    extLeftF_spec a b alo blo st.besti st.besti st.bestj st.bestsize hdp.bi_ge hdp.bj_ge
  obtain ⟨hr1, hr2⟩ := extRightF_spec a b ahi bhi
    (extLeftF a b alo blo st.besti (st.besti, st.bestj, st.bestsize)).1
    (extLeftF a b alo blo st.besti (st.besti, st.bestj, st.bestsize)).2.1
    ahi (extLeftF a b alo blo st.besti (st.besti, st.bestj, st.bestsize)).2.2
  rw [e1, e2, e3]
  refine ⟨hl1, hl2, ?_⟩
  intro hkne
  rcases hr2 with hcase | hcase
  · -- no right extension: the left-extended block obeys the DP bounds
    rw [hcase] at hkne ⊢
    have hbkne : st.bestsize ≠ 0 := by
      intro h0
      obtain ⟨hbi, hbj⟩ := hdp.bz h0
      -- with bestsize = 0 the left extension cannot fire
      have hnoop : extLeftF a b alo blo st.besti (st.besti, st.bestj, st.bestsize)
          = (st.besti, st.bestj, st.bestsize) := by
        rw [hbi, hbj, h0]
        cases alo with
        | zero => rfl
        | succ n =>
          rw [extLeftF, if_neg]
          intro hg
          omega
      rw [hnoop] at hkne
      exact hkne h0
    have hbik := hdp.bik
    have hbjk := hdp.bjk hbkne
    have hrows : alo + (ahi - alo) ≤ ahi ∨ ahi - alo = 0 := by omega
    rcases hrows with h | h
    · constructor <;> omega
    · -- no rows were processed, so bestsize = 0, contradiction
      exfalso
      apply hbkne
      have hst0 : st = ⟨fun _ => 0, alo, blo, 0⟩ := by
        rw [hst, h]
        rfl
      rw [hst0]
  · exact hcase

/-- The total matching size is bounded by either side of the range. -/
theorem matchSumF_le (a b : Chars) :
    ∀ (fuel alo ahi blo bhi : Nat),
      matchSumF a b fuel alo ahi blo bhi ≤ ahi - alo ∧
      matchSumF a b fuel alo ahi blo bhi ≤ bhi - blo := by
  intro fuel
  induction fuel with
  | zero => intro alo ahi blo bhi; simp [matchSumF]
  | succ f ih =>
    intro alo ahi blo bhi
    rw [matchSumF]
    have hb := flm_bounds a b alo ahi blo bhi
    set r := flm a b alo ahi blo bhi
    by_cases hk : r.2.2 = 0
    · simp [hk]
    · rw [if_neg hk]
      have hbounds := hb.2.2 hk
      have hL : (if alo < r.1 ∧ blo < r.2.1 then matchSumF a b f alo r.1 blo r.2.1 else 0)
          ≤ r.1 - alo ∧
          (if alo < r.1 ∧ blo < r.2.1 then matchSumF a b f alo r.1 blo r.2.1 else 0)
          ≤ r.2.1 - blo := by
        by_cases hc : alo < r.1 ∧ blo < r.2.1
        · rw [if_pos hc]; exact ih alo r.1 blo r.2.1
        · rw [if_neg hc]; omega
      have hR : (if r.1 + r.2.2 < ahi ∧ r.2.1 + r.2.2 < bhi then
            matchSumF a b f (r.1 + r.2.2) ahi (r.2.1 + r.2.2) bhi else 0)
          ≤ ahi - (r.1 + r.2.2) ∧
          (if r.1 + r.2.2 < ahi ∧ r.2.1 + r.2.2 < bhi then
            matchSumF a b f (r.1 + r.2.2) ahi (r.2.1 + r.2.2) bhi else 0)
          ≤ bhi - (r.2.1 + r.2.2) := by
        by_cases hc : r.1 + r.2.2 < ahi ∧ r.2.1 + r.2.2 < bhi
        · rw [if_pos hc]; exact ih (r.1 + r.2.2) ahi (r.2.1 + r.2.2) bhi
        · rw [if_neg hc]; omega
      constructor <;> omega

theorem matchTotal_le (a b : Chars) :
    matchTotal a b ≤ a.length ∧ matchTotal a b ≤ b.length := by
  have := matchSumF_le a b (a.length + b.length + 1) 0 a.length 0 b.length
  simpa [matchTotal] using this

theorem ratioL_le_one (a b : Chars) : ratioL a b ≤ 1 := by
  rw [ratioL]
  by_cases h : a.length + b.length = 0
  · simp [h]
  · rw [if_neg h]
    have hpos : (0 : ℚ) < (a.length : ℚ) + (b.length : ℚ) := by
      have : 0 < a.length + b.length := Nat.pos_of_ne_zero h
      exact_mod_cast this
    rw [div_le_one hpos]
    have hm := matchTotal_le a b
    have : 2 * matchTotal a b ≤ a.length + b.length := by omega
    exact_mod_cast this

theorem ratioL_nonneg (a b : Chars) : 0 ≤ ratioL a b := by
  rw [ratioL]
  by_cases h : a.length + b.length = 0
  · simp [h]
  · rw [if_neg h]
    have hpos : (0 : ℚ) < (a.length : ℚ) + (b.length : ℚ) := by
      have : 0 < a.length + b.length := Nat.pos_of_ne_zero h
      exact_mod_cast this
    positivity

theorem similarity_le_one (s t : String) : similarity s t ≤ 1 := by
  rw [similarity]
  by_cases h : s = "" || t = ""
  · simp [h]
  · rw [if_neg (by simpa using h)]
    exact ratioL_le_one _ _

theorem similarity_nonneg (s t : String) : 0 ≤ similarity s t := by
  rw [similarity]
  by_cases h : s = "" || t = ""
  · simp [h]
  · rw [if_neg (by simpa using h)]
    exact ratioL_nonneg _ _

/-- Evaluation helper: similarity at concrete inputs reduces to the
(kernel-computable) matching total and normalized lengths. -/
theorem similarity_eval (s t : String) (m la lb : Nat) (hs : s ≠ "") (ht : t ≠ "")
    (hm : matchTotal (normalizeL s.data) (normalizeL t.data) = m)
    (hla : (normalizeL s.data).length = la) (hlb : (normalizeL t.data).length = lb)
    (hne : la + lb ≠ 0) :
    similarity s t = 2 * (m : ℚ) / ((la : ℚ) + (lb : ℚ)) := by
  rw [similarity, if_neg (by simp [hs, ht]), ratioL, hm, hla, hlb,
    if_neg hne]

theorem id_similarity_eval (s t : String) (m la lb : Nat) (hs : s ≠ "") (ht : t ≠ "")
    (hm : matchTotal (normalizeIdL s.data) (normalizeIdL t.data) = m)
    (hla : (normalizeIdL s.data).length = la) (hlb : (normalizeIdL t.data).length = lb)
    (hne : la + lb ≠ 0) :
    id_similarity s t = 2 * (m : ℚ) / ((la : ℚ) + (lb : ℚ)) := by
  rw [id_similarity, if_neg (by simp [hs, ht]), ratioL, hm, hla, hlb,
    if_neg hne]

/-! ### Rounding to three decimals -/

theorem round3_mono {x y : ℚ} (h : x ≤ y) : round3 x ≤ round3 y := by
  rw [round3, round3]
  have h1 : round (x * 1000) ≤ round (y * 1000) := by
    rw [round_eq, round_eq]
    exact Int.floor_mono (by linarith)
  have h2 : ((round (x * 1000) : ℤ) : ℚ) ≤ ((round (y * 1000) : ℤ) : ℚ) := by
    exact_mod_cast h1
  linarith

theorem round3_int (m : ℤ) (q : ℚ) (h : q * 1000 = (m : ℚ)) : round3 q = (m : ℚ) / 1000 := by
  rw [round3, h, round_intCast]

theorem round3_three_fifths : round3 (3/5) = 3/5 := by
  rw [round3_int 600 (3/5) (by norm_num)]
  norm_num

theorem round3_one : round3 1 = 1 := by
  rw [round3_int 1000 1 (by norm_num)]
  norm_num

/-- Every rounded value is an integer number of thousandths. -/
theorem round3_thousandths (q : ℚ) : ∃ m : ℤ, round3 q = (m : ℚ) / 1000 :=
  ⟨round (q * 1000), rfl⟩

/-! ### Fuzzy strategy (C4) -/

theorem fuzzy_foldl_mem (s : String) :
    ∀ (els : List PWElement) (acc : List Candidate) (c : Candidate),
      (c ∈ els.foldl (fun acc el =>
        let text := el.innerText
        if text = "" ∨ text.length > 200 then acc
        else
          let sim := similarity s text
          if 1/2 ≤ sim then
            acc ++ [infoToCandidate el.info (round3 (fuzzyRawConf sim)) "fuzzy_text_match"]
          else acc) acc) ↔
      c ∈ acc ∨ ∃ el ∈ els, el.innerText ≠ "" ∧ el.innerText.length ≤ 200 ∧
        (1/2 : ℚ) ≤ similarity s el.innerText ∧
        c = infoToCandidate el.info
              (round3 (fuzzyRawConf (similarity s el.innerText))) "fuzzy_text_match" := by
  intro els
  induction els with
  | nil => intro acc c; simp
  | cons el rest ih =>
    intro acc c
    rw [List.foldl_cons]
    by_cases h1 : el.innerText = "" ∨ el.innerText.length > 200
    · simp only [if_pos h1]
      rw [ih]
      constructor
      · rintro (h | ⟨x, hx, hcond⟩)
        · exact Or.inl h
        · exact Or.inr ⟨x, List.mem_cons_of_mem el hx, hcond⟩
      · rintro (h | ⟨x, hx, hcond⟩)
        · exact Or.inl h
        · rcases List.mem_cons.mp hx with rfl | hx'
          · rcases h1 with h1 | h1
            · exact absurd h1 hcond.1
            · exact absurd hcond.2.1 (by omega)
          · exact Or.inr ⟨x, hx', hcond⟩
    · simp only [if_neg h1]
      push_neg at h1
      by_cases h2 : (1/2 : ℚ) ≤ similarity s el.innerText
      · simp only [if_pos h2]
        rw [ih]
        constructor
        · rintro (h | ⟨x, hx, hcond⟩)
          · rcases List.mem_append.mp h with h' | h'
            · exact Or.inl h'
            · simp only [List.mem_singleton] at h'
              exact Or.inr ⟨el, List.mem_cons_self el rest,
                h1.1, by omega, h2, h'⟩
          · exact Or.inr ⟨x, List.mem_cons_of_mem el hx, hcond⟩
        · rintro (h | ⟨x, hx, hcond⟩)
          · exact Or.inl (List.mem_append_left _ h)
          · rcases List.mem_cons.mp hx with rfl | hx'
            · exact Or.inl (List.mem_append_right _ (by simp [hcond.2.2.2]))
            · exact Or.inr ⟨x, hx', hcond⟩
      · simp only [if_neg h2]
        rw [ih]
        constructor
        · rintro (h | ⟨x, hx, hcond⟩)
          · exact Or.inl h
          · exact Or.inr ⟨x, List.mem_cons_of_mem el hx, hcond⟩
        · rintro (h | ⟨x, hx, hcond⟩)
          · exact Or.inl h
          · rcases List.mem_cons.mp hx with rfl | hx'
            · exact absurd hcond.2.2.1 h2
            · exact Or.inr ⟨x, hx', hcond⟩

theorem mem_findViaFuzzyText (page : PWPage) (s t : String) (acc : List Candidate)
    (c : Candidate) :
    c ∈ findViaFuzzyText page s t acc ↔
    c ∈ acc ∨ ∃ el ∈ (page.locatorAll (fuzzySelector t)).take 100,
      el.innerText ≠ "" ∧ el.innerText.length ≤ 200 ∧
      (1/2 : ℚ) ≤ similarity s el.innerText ∧
      c = infoToCandidate el.info
            (round3 (fuzzyRawConf (similarity s el.innerText))) "fuzzy_text_match" :=
  fuzzy_foldl_mem s ((page.locatorAll (fuzzySelector t)).take 100) acc c

/-- Bounds of the fuzzy confidence remap on accepted similarities. -/
theorem fuzzyConf_bounds {sim : ℚ} (h1 : 1/2 ≤ sim) (h2 : sim ≤ 1) :
    (3/5 : ℚ) ≤ round3 (fuzzyRawConf sim) ∧ round3 (fuzzyRawConf sim) ≤ 1 := by
  have hlow : fuzzyRawConf (1/2) ≤ fuzzyRawConf sim := by
    rw [fuzzyRawConf, fuzzyRawConf]
    linarith
  have hhigh : fuzzyRawConf sim ≤ fuzzyRawConf 1 := by
    rw [fuzzyRawConf, fuzzyRawConf]
    linarith
  have e1 : fuzzyRawConf (1/2) = 3/5 := by rw [fuzzyRawConf]; norm_num
  have e2 : fuzzyRawConf 1 = 1 := by rw [fuzzyRawConf]; norm_num
  constructor
  · have := round3_mono (e1 ▸ hlow)
    rwa [round3_three_fifths] at this
  · have := round3_mono (e2 ▸ hhigh)
    rwa [round3_one] at this

/-- C4 (amended): in the fuzzy free-text strategy, for every enumerated
element (first 100) whose raw inner text is non-empty and at most 200
characters, a candidate is emitted iff the similarity is at least 0.5, and
every emitted candidate stores `round(0.6 + (sim - 0.5)*0.8, 3)`, which
lies in [0.6, 1.0]. -/
theorem fuzzy_text_emission :
    ∀ (page : PWPage) (searchText elementType : String),
      (∀ el ∈ (page.locatorAll (fuzzySelector elementType)).take 100,
        el.innerText ≠ "" → el.innerText.length ≤ 200 →
        (1/2 : ℚ) ≤ similarity searchText el.innerText →
        infoToCandidate el.info
            (round3 (fuzzyRawConf (similarity searchText el.innerText)))
            "fuzzy_text_match"
          ∈ findViaFuzzyText page searchText elementType []) ∧
      (∀ c ∈ findViaFuzzyText page searchText elementType [],
        ∃ el ∈ (page.locatorAll (fuzzySelector elementType)).take 100,
          el.innerText ≠ "" ∧ el.innerText.length ≤ 200 ∧
          (1/2 : ℚ) ≤ similarity searchText el.innerText ∧
          c = infoToCandidate el.info
              (round3 (fuzzyRawConf (similarity searchText el.innerText)))
              "fuzzy_text_match" ∧
          (3/5 : ℚ) ≤ c.confidence ∧ c.confidence ≤ 1) := by
  intro page searchText elementType
  constructor
  · intro el hel h1 h2 h3
    rw [mem_findViaFuzzyText]
    exact Or.inr ⟨el, hel, h1, h2, h3, rfl⟩
  · intro c hc
    rcases (mem_findViaFuzzyText page searchText elementType [] c).mp hc with h | h
    · simp at h
    · obtain ⟨el, hel, h1, h2, h3, h4⟩ := h
      have hle1 := similarity_le_one searchText el.innerText
      have hb := fuzzyConf_bounds h3 hle1
      have hconf : c.confidence =
          round3 (fuzzyRawConf (similarity searchText el.innerText)) := by
        rw [h4]; rfl
      exact ⟨el, hel, h1, h2, h3, h4, by rw [hconf]; exact hb.1, by rw [hconf]; exact hb.2⟩

set_option maxRecDepth 40000 in
/-- Counterexample for C4 as stated: an element whose trimmed inner text
(`"hello"`) is non-empty and at most 200 characters and whose similarity to
the hint is 1 ≥ 0.5, yet no candidate is emitted — the 200-character skip
is applied to the raw (untrimmed) inner text, which has 201 characters. -/
theorem fuzzy_trimmed_text_cex :
    trimS c4el.innerText ≠ "" ∧ (trimS c4el.innerText).length ≤ 200 ∧
      (1/2 : ℚ) ≤ similarity "hello" c4el.innerText ∧
      findViaFuzzyText c4page "hello" "*" [] = [] := by
  have hm : matchTotal (normalizeL ("hello").data) (normalizeL c4el.innerText.data) = 5 := by
    decide
  have hsim : similarity "hello" c4el.innerText = 1 := by
    rw [similarity_eval "hello" c4el.innerText 5 5 5 (by decide) (by decide) hm
      (by decide) (by decide) (by decide)]
    norm_num
  refine ⟨by decide, by decide, by rw [hsim]; norm_num, ?_⟩
  decide

theorem sim_xx : similarity "x" "x" = 1 := by
  rw [similarity_eval "x" "x" 1 1 1 (by decide) (by decide) (by decide)
    (by decide) (by decide) (by decide)]
  norm_num

/-- Witness for the amended C4 theorem at a concrete page. -/
theorem fuzzy_text_emission_witness :
    c10el.innerText ≠ "" ∧ c10el.innerText.length ≤ 200 ∧
      (1/2 : ℚ) ≤ similarity "x" c10el.innerText ∧
      infoToCandidate c10el.info
          (round3 (fuzzyRawConf (similarity "x" c10el.innerText))) "fuzzy_text_match"
        ∈ findViaFuzzyText c10page "x" "*" [] := by
  have h3 : (1/2 : ℚ) ≤ similarity "x" c10el.innerText := by
    show (1/2 : ℚ) ≤ similarity "x" "x"
    rw [sim_xx]
    norm_num
  refine ⟨by decide, by decide, h3, ?_⟩
  exact (fuzzy_text_emission c10page "x" "*").1 c10el
    (List.mem_singleton.mpr rfl) (by decide) (by decide) h3

/-! ### Similarity symmetry (C8) -/

/-- C8 (amended): `similarity` is symmetric whenever the two inputs share
the same free-text-normalized form; in general the difflib ratio is
asymmetric (see the counterexample). -/
theorem similarity_symm_of_normalize_eq :
    ∀ (a b : String), normalize a = normalize b → similarity a b = similarity b a := by
  intro a b h
  have hL : normalizeL a.data = normalizeL b.data := congrArg String.data h
  rw [similarity, similarity]
  by_cases ha : a = ""
  · by_cases hb : b = "" <;> simp [ha, hb]
  · by_cases hb : b = ""
    · simp [ha, hb]
    · rw [if_neg (by simp [ha, hb]), if_neg (by simp [ha, hb]), hL]

/-- Witness for the amended C8 theorem: `"Hello!"` and `"hello"` normalize
identically. -/
theorem similarity_symm_of_normalize_eq_witness :
    normalize "Hello!" = normalize "hello" ∧
      similarity "Hello!" "hello" = similarity "hello" "Hello!" :=
  ⟨by decide, similarity_symm_of_normalize_eq "Hello!" "hello" (by decide)⟩

/-- Counterexample for C8 as stated, at the inputs documented in the
CPython `difflib` manual: `ratio` depends on the argument order, so
`similarity("tide", "diet") = 0.25` while `similarity("diet", "tide") = 0.5`. -/
theorem similarity_not_symmetric_cex :
    similarity "tide" "diet" = 1/4 ∧ similarity "diet" "tide" = 1/2 ∧
      similarity "tide" "diet" ≠ similarity "diet" "tide" := by
  have h1 : similarity "tide" "diet" = 1/4 := by
    rw [similarity_eval "tide" "diet" 1 4 4 (by decide) (by decide) (by decide)
      (by decide) (by decide) (by decide)]
    norm_num
  have h2 : similarity "diet" "tide" = 1/2 := by
    rw [similarity_eval "diet" "tide" 2 4 4 (by decide) (by decide) (by decide)
      (by decide) (by decide) (by decide)]
    norm_num
  refine ⟨h1, h2, ?_⟩
  rw [h1, h2]
  norm_num

/-! ### Rounded confidences across the three strategies (C10) -/

theorem pw_foldl_mem (s : String) :
    ∀ (atts : List (PWQueryResult × ℚ × String)) (acc : List Candidate) (c : Candidate),
      (c ∈ atts.foldl (fun acc att =>
        if att.1.count > 0 then
          acc ++ [infoToCandidate att.1.info (round3 (pwRawConf s att.2.1 att.1)) att.2.2]
        else acc) acc) ↔
      c ∈ acc ∨ ∃ att ∈ atts, att.1.count > 0 ∧
        c = infoToCandidate att.1.info (round3 (pwRawConf s att.2.1 att.1)) att.2.2 := by
  intro atts
  induction atts with
  | nil => intro acc c; simp
  | cons att rest ih =>
    intro acc c
    rw [List.foldl_cons]
    by_cases h1 : att.1.count > 0
    · rw [if_pos h1, ih]
      constructor
      · rintro (h | ⟨x, hx, hcond⟩)
        · rcases List.mem_append.mp h with h' | h'
          · exact Or.inl h'
          · simp only [List.mem_singleton] at h'
            exact Or.inr ⟨att, List.mem_cons_self att rest, h1, h'⟩
        · exact Or.inr ⟨x, List.mem_cons_of_mem att hx, hcond⟩
      · rintro (h | ⟨x, hx, hcond⟩)
        · exact Or.inl (List.mem_append_left _ h)
        · rcases List.mem_cons.mp hx with rfl | hx'
          · exact Or.inl (List.mem_append_right _ (by simp [hcond.2]))
          · exact Or.inr ⟨x, hx', hcond⟩
    · rw [if_neg h1, ih]
      constructor
      · rintro (h | ⟨x, hx, hcond⟩)
        · exact Or.inl h
        · exact Or.inr ⟨x, List.mem_cons_of_mem att hx, hcond⟩
      · rintro (h | ⟨x, hx, hcond⟩)
        · exact Or.inl h
        · rcases List.mem_cons.mp hx with rfl | hx'
          · exact absurd hcond.1 h1
          · exact Or.inr ⟨x, hx', hcond⟩

theorem mem_findViaPlaywright (page : PWPage) (s t : String) (acc : List Candidate)
    (c : Candidate) (h : c ∈ findViaPlaywright page s t acc) :
    c ∈ acc ∨ ∃ att : PWQueryResult × ℚ × String, att.1.count > 0 ∧
      c = infoToCandidate att.1.info (round3 (pwRawConf s att.2.1 att.1)) att.2.2 := by
  rcases (pw_foldl_mem s _ acc c).mp h with h' | ⟨att, _, hcond⟩
  · exact Or.inl h'
  · exact Or.inr ⟨att, hcond⟩

theorem attr_inner_mem (s attr : String) :
    ∀ (els : List PWElement) (acc : List Candidate) (c : Candidate),
      (c ∈ els.foldl (fun acc2 el =>
        let v := el.getAttr attr
        if v = "" then acc2
        else
          let sim := id_similarity s v
          if 6/10 ≤ sim then
            acc2 ++ [infoToCandidate el.info (round3 (attrRawConf attr sim))
                      ("attribute_match_" ++ attr)]
          else acc2) acc) ↔
      c ∈ acc ∨ ∃ el ∈ els, el.getAttr attr ≠ "" ∧
        (6/10 : ℚ) ≤ id_similarity s (el.getAttr attr) ∧
        c = infoToCandidate el.info
              (round3 (attrRawConf attr (id_similarity s (el.getAttr attr))))
              ("attribute_match_" ++ attr) := by
  intro els
  induction els with
  | nil => intro acc c; simp
  | cons el rest ih =>
    intro acc c
    rw [List.foldl_cons]
    by_cases h1 : el.getAttr attr = ""
    · simp only [if_pos h1]
      rw [ih]
      constructor
      · rintro (h | ⟨x, hx, hcond⟩)
        · exact Or.inl h
        · exact Or.inr ⟨x, List.mem_cons_of_mem el hx, hcond⟩
      · rintro (h | ⟨x, hx, hcond⟩)
        · exact Or.inl h
        · rcases List.mem_cons.mp hx with rfl | hx'
          · exact absurd h1 hcond.1
          · exact Or.inr ⟨x, hx', hcond⟩
    · simp only [if_neg h1]
      by_cases h2 : (6/10 : ℚ) ≤ id_similarity s (el.getAttr attr)
      · simp only [if_pos h2]
        rw [ih]
        constructor
        · rintro (h | ⟨x, hx, hcond⟩)
          · rcases List.mem_append.mp h with h' | h'
            · exact Or.inl h'
            · simp only [List.mem_singleton] at h'
              exact Or.inr ⟨el, List.mem_cons_self el rest, h1, h2, h'⟩
          · exact Or.inr ⟨x, List.mem_cons_of_mem el hx, hcond⟩
        · rintro (h | ⟨x, hx, hcond⟩)
          · exact Or.inl (List.mem_append_left _ h)
          · rcases List.mem_cons.mp hx with rfl | hx'
            · exact Or.inl (List.mem_append_right _ (by simp [hcond.2.2]))
            · exact Or.inr ⟨x, hx', hcond⟩
      · simp only [if_neg h2]
        rw [ih]
        constructor
        · rintro (h | ⟨x, hx, hcond⟩)
          · exact Or.inl h
          · exact Or.inr ⟨x, List.mem_cons_of_mem el hx, hcond⟩
        · rintro (h | ⟨x, hx, hcond⟩)
          · exact Or.inl h
          · rcases List.mem_cons.mp hx with rfl | hx'
            · exact absurd hcond.2.1 h2
            · exact Or.inr ⟨x, hx', hcond⟩

theorem mem_findViaAttributes (page : PWPage) (s t : String) (acc : List Candidate)
    (c : Candidate) (h : c ∈ findViaAttributes page s t acc) :
    c ∈ acc ∨ ∃ (attr v : String), v ≠ "" ∧ (6/10 : ℚ) ≤ id_similarity s v ∧
      ∃ info : ElementInfo,
        c = infoToCandidate info (round3 (attrRawConf attr (id_similarity s v)))
              ("attribute_match_" ++ attr) := by
  rw [findViaAttributes] at h
  set tag := if t ≠ "*" then t else "*"
  revert h
  have main : ∀ (attrs : List String) (acc0 : List Candidate),
      c ∈ attrs.foldl (fun acc attr =>
        ((page.locatorAll (tag ++ "[" ++ attr ++ "]")).take 50).foldl (fun acc2 el =>
          let v := el.getAttr attr
          if v = "" then acc2
          else
            let sim := id_similarity s v
            if 6/10 ≤ sim then
              acc2 ++ [infoToCandidate el.info (round3 (attrRawConf attr sim))
                        ("attribute_match_" ++ attr)]
            else acc2) acc) acc0 →
      c ∈ acc0 ∨ ∃ (attr v : String), v ≠ "" ∧ (6/10 : ℚ) ≤ id_similarity s v ∧
        ∃ info : ElementInfo,
          c = infoToCandidate info (round3 (attrRawConf attr (id_similarity s v)))
                ("attribute_match_" ++ attr) := by
    intro attrs
    induction attrs with
    | nil => intro acc0 h; exact Or.inl h
    | cons attr rest ih =>
      intro acc0 h
      rw [List.foldl_cons] at h
      rcases ih _ h with h' | h'
      · rcases (attr_inner_mem s attr _ acc0 c).mp h' with h'' | ⟨el, _, hv, hsim, heq⟩
        · exact Or.inl h''
        · exact Or.inr ⟨attr, el.getAttr attr, hv, hsim, el.info, heq⟩
      · exact Or.inr h'
  exact main MATCHABLE_ATTRIBUTES acc

/-- C10: each discovery strategy stores its confidence formula rounded to
three decimals, so every candidate any strategy produces carries a
confidence that is an integer number of thousandths. -/
theorem strategy_confidences_rounded :
    ∀ (page : PWPage) (searchText elementType : String) (c : Candidate),
      (c ∈ findViaPlaywright page searchText elementType [] →
        ∃ att : PWQueryResult × ℚ × String,
          c.confidence = round3 (pwRawConf searchText att.2.1 att.1)) ∧
      (c ∈ findViaFuzzyText page searchText elementType [] →
        ∃ el : PWElement,
          c.confidence = round3 (fuzzyRawConf (similarity searchText el.innerText))) ∧
      (c ∈ findViaAttributes page searchText elementType [] →
        ∃ (attr v : String),
          c.confidence = round3 (attrRawConf attr (id_similarity searchText v))) ∧
      ((c ∈ findViaPlaywright page searchText elementType [] ∨
        c ∈ findViaFuzzyText page searchText elementType [] ∨
        c ∈ findViaAttributes page searchText elementType []) →
        ∃ m : ℤ, c.confidence = (m : ℚ) / 1000) := by
  intro page s t c
  have hpw : c ∈ findViaPlaywright page s t [] →
      ∃ att : PWQueryResult × ℚ × String,
        c.confidence = round3 (pwRawConf s att.2.1 att.1) := by
    intro h
    rcases mem_findViaPlaywright page s t [] c h with h' | ⟨att, _, heq⟩
    · simp at h'
    · exact ⟨att, by rw [heq]; rfl⟩
  have hfz : c ∈ findViaFuzzyText page s t [] →
      ∃ el : PWElement,
        c.confidence = round3 (fuzzyRawConf (similarity s el.innerText)) := by
    intro h
    rcases (mem_findViaFuzzyText page s t [] c).mp h with h' | ⟨el, _, _, _, _, heq⟩
    · simp at h'
    · exact ⟨el, by rw [heq]; rfl⟩
  have hat : c ∈ findViaAttributes page s t [] →
      ∃ (attr v : String),
        c.confidence = round3 (attrRawConf attr (id_similarity s v)) := by
    intro h
    rcases mem_findViaAttributes page s t [] c h with h' | ⟨attr, v, _, _, info, heq⟩
    · simp at h'
    · exact ⟨attr, v, by rw [heq]; rfl⟩
  refine ⟨hpw, hfz, hat, ?_⟩
  rintro (h | h | h)
  · obtain ⟨att, heq⟩ := hpw h
    exact heq ▸ round3_thousandths _
  · obtain ⟨el, heq⟩ := hfz h
    exact heq ▸ round3_thousandths _
  · obtain ⟨attr, v, heq⟩ := hat h
    exact heq ▸ round3_thousandths _

/-- Witness for C10: a concrete fuzzy-strategy candidate has a confidence
that is an integer number of thousandths. -/
theorem strategy_confidences_rounded_witness :
    infoToCandidate c10el.info
        (round3 (fuzzyRawConf (similarity "x" c10el.innerText))) "fuzzy_text_match"
      ∈ findViaFuzzyText c10page "x" "*" [] ∧
    ∃ m : ℤ,
      (infoToCandidate c10el.info
        (round3 (fuzzyRawConf (similarity "x" c10el.innerText)))
        "fuzzy_text_match").confidence = (m : ℚ) / 1000 := by
  have hmem := fuzzy_text_emission_witness.2.2.2
  exact ⟨hmem,
    (strategy_confidences_rounded c10page "x" "*" _).2.2.2 (Or.inr (Or.inl hmem))⟩

/-! ### Robust locator synthesis (C1) -/

/-- C1 (amended): for every element whose id is non-empty, does not begin
with a digit, and contains no colon anywhere, if the id-based locator
resolves to exactly one node then `getRobustXPath` returns exactly
`//tag[@id='...']` (lowercase tag) with match count 1, before trying any
other predicate. -/
theorem getRobustXPath_unique_id :
    ∀ (doc : DocEnv) (el : DomElement),
      getAttr el.attrs "id" ≠ "" →
      ((getAttr el.attrs "id").data.head?.all (fun c => !c.isDigit)) = true →
      (getAttr el.attrs "id").data.contains ':' = false →
      countXPath doc ("//" ++ String.mk (lowerL el.tagName.data) ++ "[@id='" ++
        getAttr el.attrs "id" ++ "']") = 1 →
      getRobustXPath doc el =
        ("//" ++ String.mk (lowerL el.tagName.data) ++ "[@id='" ++
          getAttr el.attrs "id" ++ "']", 1) := by
  intro doc el h1 h2 h3 h4
  have hskip : idSkipMatch (getAttr el.attrs "id") = false := by
    rw [idSkipMatch, Bool.or_eq_false_iff]
    refine ⟨?_, h3⟩
    cases hd : (getAttr el.attrs "id").data with
    | nil => simp
    | cons c tl =>
      have : (getAttr el.attrs "id").data.head? = some c := by rw [hd]; rfl
      rw [this] at h2
      simpa using h2
  simp only [getRobustXPath]
  rw [if_pos]
  exact ⟨h1, by simp [hskip], h4⟩

/-- Witness for the amended C1 theorem at the spec's `login-btn` example. -/
theorem getRobustXPath_unique_id_witness :
    (getAttr c1wEl.attrs "id" ≠ "" ∧
      ((getAttr c1wEl.attrs "id").data.head?.all (fun c => !c.isDigit)) = true ∧
      (getAttr c1wEl.attrs "id").data.contains ':' = false ∧
      countXPath c1wDoc ("//" ++ String.mk (lowerL c1wEl.tagName.data) ++ "[@id='" ++
        getAttr c1wEl.attrs "id" ++ "']") = 1) ∧
    getRobustXPath c1wDoc c1wEl = ("//button[@id='login-btn']", 1) := by
  refine ⟨⟨by decide, by decide, by decide, by decide⟩, ?_⟩
  rw [getRobustXPath_unique_id c1wDoc c1wEl (by decide) (by decide) (by decide)
    (by decide)]
  decide

/-- Counterexample for C1 as stated: the element's id `a:b` does not begin
with a digit or a colon and `//div[@id='a:b']` resolves to exactly one
node, yet the synthesizer does not return the id locator — the JS regex
`/^[0-9]|:/` skips the id step when a colon appears anywhere in the id, and
the `data-testid` predicate wins instead. -/
theorem getRobustXPath_id_colon_cex :
    getAttr c1cexEl.attrs "id" = "a:b" ∧
    ("a:b").data.head? = some 'a' ∧ ('a').isDigit = false ∧ 'a' ≠ ':' ∧
    countXPath c1cexDoc "//div[@id='a:b']" = 1 ∧
    getRobustXPath c1cexDoc c1cexEl = ("//div[@data-testid='x']", 1) ∧
    getRobustXPath c1cexDoc c1cexEl ≠ ("//div[@id='a:b']", 1) := by
  decide

/-! ### Page session manager: lookup helpers -/

theorem lookup_none_of_no_key {β : Type} (d : List (String × β)) (k : String)
    (h : ∀ p ∈ d, p.1 ≠ k) : d.lookup k = none := by
  induction d with
  | nil => rfl
  | cons p rest ih =>
    obtain ⟨k₁, v₁⟩ := p
    have hk : k₁ ≠ k := h (k₁, v₁) (by simp)
    rw [List.lookup_cons]
    have : (k == k₁) = false := by
      simp only [beq_eq_false_iff_ne]
      exact fun hkk => hk hkk.symm
    rw [this]
    exact ih (fun q hq => h q (List.mem_cons_of_mem _ hq))

theorem lookup_append_singleton {β : Type} (d : List (String × β)) (k : String) (v : β)
    (h : d.lookup k = none) : (d ++ [(k, v)]).lookup k = some v := by
  rw [List.lookup_append, h]
  simp [List.lookup_cons]

theorem lookup_map_replace (d : List (String × (String × Nat))) (k : String)
    (v : String × Nat) (h : d.any (fun p => decide (p.1 = k)) = true) :
    (d.map (fun p => if p.1 = k then (k, v) else p)).lookup k = some v := by
  induction d with
  | nil => simp at h
  | cons p rest ih =>
    obtain ⟨k₁, v₁⟩ := p
    by_cases hk : k₁ = k
    · simp only [List.map_cons]
      rw [if_pos hk, List.lookup_cons]
      simp
    · simp only [List.map_cons]
      rw [if_neg hk, List.lookup_cons]
      have hbeq : (k == k₁) = false := by
        simp only [beq_eq_false_iff_ne]
        exact fun hkk => hk hkk.symm
      rw [hbeq]
      apply ih
      simp only [List.any_cons, Bool.or_eq_true, decide_eq_true_eq] at h
      rcases h with h | h
      · exact absurd h hk
      · exact h

theorem diskWrite_lookup (d : List (String × (String × Nat))) (k : String)
    (v : String × Nat) : (diskWrite d k v).lookup k = some v := by
  rw [diskWrite]
  by_cases h : d.any (fun p => decide (p.1 = k))
  · rw [if_pos h]
    exact lookup_map_replace d k v h
  · rw [if_neg h]
    refine lookup_append_singleton d k v (lookup_none_of_no_key d k ?_)
    intro p hp hpk
    exact h (List.any_eq_true.mpr ⟨p, hp, by simp [hpk]⟩)

/-! ### `get_page` case analysis -/

theorem get_page_session_case (nav : String → Option String) (w : PageWorld)
    (url : String) (pid : Nat) (hpc : w.pageCache.lookup url = some pid) :
    get_page nav w url = ⟨pid, w, false, none, false⟩ := by
  simp [get_page, hpc]

theorem get_page_fresh_case (nav : String → Option String) (w : PageWorld)
    (url html : String) (hpc : w.pageCache.lookup url = none)
    (hdf : diskFresh w url = some html) :
    get_page nav w url =
      ⟨w.nextId,
        ⟨w.pageCache ++ [(url, w.nextId)], w.disk, w.nextId + 1, w.now⟩,
        false, some (stripScripts (baseAdjust url html)), false⟩ := by
  simp [get_page, hpc, hdf]

theorem get_page_nav_success_case (nav : String → Option String) (w : PageWorld)
    (url content : String) (hpc : w.pageCache.lookup url = none)
    (hdf : diskFresh w url = none) (hnav : nav url = some content) :
    get_page nav w url =
      ⟨w.nextId,
        ⟨w.pageCache ++ [(url, w.nextId)],
          diskWrite w.disk (cacheKey url) (content, w.now), w.nextId + 1, w.now⟩,
        true, none, false⟩ := by
  simp [get_page, hpc, hdf, hnav]

theorem get_page_nav_failure_case (nav : String → Option String) (w : PageWorld)
    (url : String) (hpc : w.pageCache.lookup url = none)
    (hdf : diskFresh w url = none) (hnav : nav url = none) :
    get_page nav w url =
      ⟨w.nextId,
        ⟨w.pageCache ++ [(url, w.nextId)], w.disk, w.nextId + 1, w.now⟩,
        true, none, false⟩ := by
  simp [get_page, hpc, hdf, hnav]

/-! ### Disk snapshot cache TTL (C5) -/

/-- C5 (amended): when no live page session exists for the URL, a disk
snapshot entry is used iff its modification time is less than 3600 seconds
in the past AND its content is non-empty (the `if cached_html:` truthiness
test): a fresh non-empty entry is served without live navigation; an
expired or empty entry is ignored (not deleted), a live navigation runs,
and on success the entry is overwritten (on failure it is left
untouched). -/
theorem disk_cache_ttl :
    ∀ (nav : String → Option String) (w : PageWorld) (url html : String) (mtime : Nat),
      w.pageCache.lookup url = none →
      w.disk.lookup (cacheKey url) = some (html, mtime) →
      ((w.now - mtime < 3600 → html ≠ "" →
        (get_page nav w url).liveNav = false ∧ (get_page nav w url).setHtml ≠ none ∧
        (get_page nav w url).world.disk = w.disk) ∧
       (3600 ≤ w.now - mtime ∨ html = "" →
        (get_page nav w url).liveNav = true ∧
        (∀ content, nav url = some content →
          (get_page nav w url).world.disk.lookup (cacheKey url) = some (content, w.now)) ∧
        (nav url = none → (get_page nav w url).world.disk = w.disk))) := by
  intro nav w url html mtime hpc hdisk
  constructor
  · intro hfresh hne
    have hdf : diskFresh w url = some html := by
      simp [diskFresh, hdisk, hfresh, hne]
    rw [get_page_fresh_case nav w url html hpc hdf]
    exact ⟨rfl, by simp, rfl⟩
  · intro hmiss
    have hdf : diskFresh w url = none := by
      simp only [diskFresh, hdisk]
      rw [if_neg]
      rintro ⟨h1, h2⟩
      rcases hmiss with h | h
      · omega
      · exact h2 h
    refine ⟨?_, ?_, ?_⟩
    · cases hnav : nav url with
      | some content => rw [get_page_nav_success_case nav w url content hpc hdf hnav]
      | none => rw [get_page_nav_failure_case nav w url hpc hdf hnav]
    · intro content hnav
      rw [get_page_nav_success_case nav w url content hpc hdf hnav]
      exact diskWrite_lookup w.disk (cacheKey url) (content, w.now)
    · intro hnav
      rw [get_page_nav_failure_case nav w url hpc hdf hnav]

/-- Witness for the amended C5 theorem: a world with a fresh non-empty
snapshot (no live navigation), one with an expired snapshot (live
navigation, overwrite on success, entry untouched on failure), and one
with a fresh but empty snapshot (live navigation despite freshness). -/
theorem disk_cache_ttl_witness :
    (c5wFresh.pageCache.lookup "http://u" = none ∧
      c5wFresh.disk.lookup (cacheKey "http://u") = some ("<head></head>old", 100) ∧
      c5wFresh.now - 100 < 3600 ∧
      (get_page (fun _ => some "new") c5wFresh "http://u").liveNav = false) ∧
    (c5wExp.pageCache.lookup "http://u" = none ∧
      c5wExp.disk.lookup (cacheKey "http://u") = some ("<head></head>old", 100) ∧
      3600 ≤ c5wExp.now - 100 ∧
      (get_page (fun _ => some "new") c5wExp "http://u").liveNav = true ∧
      (get_page (fun _ => some "new") c5wExp "http://u").world.disk.lookup
          (cacheKey "http://u") = some ("new", c5wExp.now) ∧
      (get_page (fun _ => none) c5wExp "http://u").world.disk = c5wExp.disk) ∧
    (c5wEmpty.disk.lookup (cacheKey "http://u") = some ("", 100) ∧
      c5wEmpty.now - 100 < 3600 ∧
      (get_page (fun _ => some "new") c5wEmpty "http://u").liveNav = true ∧
      (get_page (fun _ => some "new") c5wEmpty "http://u").world.disk.lookup
          (cacheKey "http://u") = some ("new", c5wEmpty.now)) := by
  refine ⟨⟨by decide, by decide, by decide, ?_⟩, ⟨by decide, by decide, by decide, ?_, ?_, ?_⟩,
    ⟨by decide, by decide, ?_, ?_⟩⟩
  · exact ((disk_cache_ttl (fun _ => some "new") c5wFresh "http://u" "<head></head>old" 100
      (by decide) (by decide)).1 (by decide) (by decide)).1
  · exact ((disk_cache_ttl (fun _ => some "new") c5wExp "http://u" "<head></head>old" 100
      (by decide) (by decide)).2 (Or.inl (by decide))).1
  · exact ((disk_cache_ttl (fun _ => some "new") c5wExp "http://u" "<head></head>old" 100
      (by decide) (by decide)).2 (Or.inl (by decide))).2.1 "new" rfl
  · exact ((disk_cache_ttl (fun _ => none) c5wExp "http://u" "<head></head>old" 100
      (by decide) (by decide)).2 (Or.inl (by decide))).2.2 rfl
  · exact ((disk_cache_ttl (fun _ => some "new") c5wEmpty "http://u" "" 100
      (by decide) (by decide)).2 (Or.inr rfl)).1
  · exact ((disk_cache_ttl (fun _ => some "new") c5wEmpty "http://u" "" 100
      (by decide) (by decide)).2 (Or.inr rfl)).2.1 "new" rfl

/-- Counterexample for C5 as stated: a registered page session
short-circuits `get_page`, so requesting a URL whose snapshot has long
expired performs no live navigation (and the expired entry is neither used
nor overwritten). -/
theorem disk_cache_ttl_cex :
    c5wSession.disk.lookup (cacheKey "http://u") = some ("old", 0) ∧
    3600 ≤ c5wSession.now - 0 ∧
    (get_page (fun _ => some "new") c5wSession "http://u").liveNav = false ∧
    (get_page (fun _ => some "new") c5wSession "http://u").world = c5wSession := by
  decide

/-! ### Navigation failure handling (C6) -/

/-- C6: when live navigation fails, `get_page` swallows the error, still
registers a page session for the URL, returns the (possibly blank) page
handle, never raises, and a subsequent call for the same URL returns the
registered session without any re-fetch. -/
theorem get_page_nav_failure_policy :
    ∀ (nav : String → Option String) (w : PageWorld) (url : String),
      w.pageCache.lookup url = none →
      diskFresh w url = none →
      nav url = none →
      (get_page nav w url).raised = false ∧
      (get_page nav w url).liveNav = true ∧
      (get_page nav w url).page = w.nextId ∧
      (get_page nav w url).world.pageCache.lookup url = some (get_page nav w url).page ∧
      (get_page nav w url).world.disk = w.disk ∧
      get_page nav (get_page nav w url).world url =
        ⟨(get_page nav w url).page, (get_page nav w url).world, false, none, false⟩ := by
  intro nav w url hpc hdf hnav
  rw [get_page_nav_failure_case nav w url hpc hdf hnav]
  have hlook : (w.pageCache ++ [(url, w.nextId)]).lookup url = some w.nextId :=
    lookup_append_singleton w.pageCache url w.nextId hpc
  refine ⟨rfl, rfl, rfl, hlook, rfl, ?_⟩
  exact get_page_session_case nav _ url w.nextId hlook

/-- Witness for C6 at a concrete world with failing navigation. -/
theorem get_page_nav_failure_policy_witness :
    (c6w.pageCache.lookup "http://u" = none ∧ diskFresh c6w "http://u" = none) ∧
    (get_page (fun _ => none) c6w "http://u").raised = false ∧
    (get_page (fun _ => none) c6w "http://u").liveNav = true ∧
    (get_page (fun _ => none) c6w "http://u").world.pageCache.lookup "http://u" =
      some (get_page (fun _ => none) c6w "http://u").page ∧
    get_page (fun _ => none) (get_page (fun _ => none) c6w "http://u").world "http://u" =
      ⟨(get_page (fun _ => none) c6w "http://u").page,
        (get_page (fun _ => none) c6w "http://u").world, false, none, false⟩ := by
  have h := get_page_nav_failure_policy (fun _ => none) c6w "http://u"
    (by decide) (by decide) rfl
  exact ⟨⟨by decide, by decide⟩, h.1, h.2.1, h.2.2.2.1, h.2.2.2.2.2⟩

/-! ### Script stripping (C7): fuel stability and rewrite equations -/

theorem stripScriptsF_congr :
    ∀ (k : Nat) (s : Chars), s.length ≤ k →
      ∀ n m, s.length < n → s.length < m → stripScriptsF n s = stripScriptsF m s := by
  intro k
  induction k with
  | zero =>
    intro s hs n m hn hm
    have hnil : s = [] := List.length_eq_zero.mp (Nat.le_antisymm hs (Nat.zero_le _))
    subst hnil
    cases n with
    | zero => omega
    | succ n' =>
      cases m with
      | zero => omega
      | succ m' => rfl
  | succ k ih =>
    intro s hs n m hn hm
    cases s with
    | nil =>
      cases n with
      | zero => omega
      | succ n' =>
        cases m with
        | zero => omega
        | succ m' => rfl
    | cons c rest =>
      cases n with
      | zero => omega
      | succ n' =>
        cases m with
        | zero => omega
        | succ m' =>
          simp only [stripScriptsF]
          cases hml : scriptMatchLen (c :: rest) with
          | some L =>
            show stripScriptsF n' (rest.drop (L - 1)) = stripScriptsF m' (rest.drop (L - 1))
            apply ih
            · have := List.length_drop (L - 1) rest
              simp only [List.length_cons] at hs
              omega
            · have := List.length_drop (L - 1) rest
              simp only [List.length_cons] at hn
              omega
            · have := List.length_drop (L - 1) rest
              simp only [List.length_cons] at hm
              omega
          | none =>
            show c :: stripScriptsF n' rest = c :: stripScriptsF m' rest
            congr 1
            apply ih
            · simp only [List.length_cons] at hs; omega
            · simp only [List.length_cons] at hn; omega
            · simp only [List.length_cons] at hm; omega

theorem stripScriptsL_cons_none (c : Char) (rest : Chars)
    (h : scriptMatchLen (c :: rest) = none) :
    stripScriptsL (c :: rest) = c :: stripScriptsL rest := by
  show stripScriptsF ((c :: rest).length + 1) (c :: rest) = _
  simp only [List.length_cons, stripScriptsF, h]
  rfl

theorem stripScriptsL_cons_some (c : Char) (rest : Chars) (L : Nat)
    (h : scriptMatchLen (c :: rest) = some L) :
    stripScriptsL (c :: rest) = stripScriptsL (rest.drop (L - 1)) := by
  show stripScriptsF ((c :: rest).length + 1) (c :: rest) = _
  simp only [List.length_cons, stripScriptsF, h]
  apply stripScriptsF_congr (rest.drop (L - 1)).length _ le_rfl
  · have := List.length_drop (L - 1) rest
    omega
  · omega

theorem scriptMatchLen_none_of_not_start (s : Chars)
    (h : startsWithCI scriptOpenPat s = false) : scriptMatchLen s = none := by
  rw [scriptMatchLen, if_neg (by simp [h])]

theorem scriptMatchLen_pos (s : Chars) (L : Nat) (h : scriptMatchLen s = some L) :
    1 ≤ L := by
  rw [scriptMatchLen] at h
  by_cases h1 : startsWithCI scriptOpenPat s = true
  · rw [if_pos (by simp [h1])] at h
    by_cases h2 : (match s.drop 7 with | [] => true | c :: _ => !isWordChar c) = true
    · rw [if_pos h2] at h
      cases hf : (s.drop 7).findIdx? (fun c => c == '>') with
      | none =>
        rw [hf] at h
        have h' : (none : Option Nat) = some L := h
        cases h'
      | some g =>
        rw [hf] at h
        have h' : (match findCloseIdx (s.drop (7 + g + 1)) with
            | none => none
            | some q => some (7 + g + 1 + q + 9)) = some L := h
        cases hc : findCloseIdx (s.drop (7 + g + 1)) with
        | none =>
          rw [hc] at h'
          have h'' : (none : Option Nat) = some L := h'
          cases h''
        | some q =>
          rw [hc] at h'
          have h'' : some (7 + g + 1 + q + 9) = some L := h'
          injection h'' with h''
          omega
    · rw [if_neg h2] at h
      cases h
  · rw [if_neg (by simpa using h1)] at h
    cases h

/-! ### Script stripping: gap segments pass through untouched -/

theorem startsWithCI_of_append (pat a z : Chars) (hle : pat.length ≤ a.length)
    (h : startsWithCI pat (a ++ z) = true) : startsWithCI pat a = true := by
  induction pat generalizing a with
  | nil => rfl
  | cons p ps ih =>
    cases a with
    | nil => simp at hle
    | cons c a' =>
      rw [List.cons_append, startsWithCI, Bool.and_eq_true] at h
      rw [startsWithCI, Bool.and_eq_true]
      refine ⟨h.1, ih a' (by simpa using hle) h.2⟩

/-- A case-insensitive pattern avoiding `<` cannot start inside a segment
and reach across a boundary whose right side begins with `<`. -/
theorem startsWithCI_cross_length (ps : Chars) :
    ∀ (a w : Chars), (∀ c ∈ ps, c ≠ '<') →
      startsWithCI ps (a ++ '<' :: w) = true → ps.length ≤ a.length := by
  induction ps with
  | nil => intro a w _ _; simp
  | cons p ps' ih =>
    intro a w hne h
    cases a with
    | nil =>
      rw [List.nil_append, startsWithCI, Bool.and_eq_true] at h
      have hp : p = '<' := by
        have := h.1
        simp only [decide_eq_true_eq] at this
        rw [← this]
        rfl
      exact absurd hp (hne p (List.mem_cons_self p ps'))
    | cons c a' =>
      rw [List.cons_append, startsWithCI, Bool.and_eq_true] at h
      have := ih a' w (fun x hx => hne x (List.mem_cons_of_mem p hx)) h.2
      simp only [List.length_cons]
      omega

theorem scriptOpen_tail_no_lt : ∀ c ∈ ("script").data, c ≠ '<' := by decide

theorem scriptOpen_decomp : scriptOpenPat = '<' :: ("script").data := by decide

/-- No match can begin anywhere inside a `<script`-free segment when the
following text is empty or begins with `<`. -/
theorem stripScriptsL_gap_append (a z : Chars)
    (ha : occursCI scriptOpenPat a = false)
    (hz : z = [] ∨ ∃ w, z = '<' :: w) :
    stripScriptsL (a ++ z) = a ++ stripScriptsL z := by
  induction a with
  | nil => simp
  | cons c a' ih =>
    have hsplit : startsWithCI scriptOpenPat (c :: a') = false ∧
        occursCI scriptOpenPat a' = false := by
      rw [occursCI, Bool.or_eq_false_iff] at ha
      exact ha
    have hnostart : startsWithCI scriptOpenPat ((c :: a') ++ z) = false := by
      rcases hz with rfl | ⟨w, rfl⟩
      · rw [List.append_nil]
        exact hsplit.1
      · by_contra hcontra
        have hT : startsWithCI scriptOpenPat ((c :: a') ++ '<' :: w) = true := by
          simpa using hcontra
        have hT2 := hT
        rw [scriptOpen_decomp, List.cons_append, startsWithCI, Bool.and_eq_true] at hT2
        have hlen : ("script").data.length ≤ a'.length :=
          startsWithCI_cross_length _ a' w scriptOpen_tail_no_lt hT2.2
        have hfit : scriptOpenPat.length ≤ (c :: a').length := by
          rw [scriptOpen_decomp]
          have h6 : ("script").data.length = 6 := by decide
          simp only [List.length_cons, List.length_nil]
          omega
        have := startsWithCI_of_append scriptOpenPat (c :: a') ('<' :: w) hfit hT
        rw [hsplit.1] at this
        cases this
    have hnone : scriptMatchLen (c :: (a' ++ z)) = none := by
      have := scriptMatchLen_none_of_not_start ((c :: a') ++ z) hnostart
      simpa using this
    rw [List.cons_append, stripScriptsL_cons_none _ _ hnone, ih hsplit.2]
    rfl

theorem stripScriptsL_noop (s : Chars) (h : occursCI scriptOpenPat s = false) :
    stripScriptsL s = s := by
  have h0 : stripScriptsL ([] : Chars) = [] := rfl
  have := stripScriptsL_gap_append s [] h (Or.inl rfl)
  simpa [h0] using this

/-! ### Script stripping: well-formed script elements are removed whole -/

theorem startsWithCI_refl_append (pat r : Chars) (h : pat.map lc = pat) :
    startsWithCI pat (pat ++ r) = true := by
  induction pat with
  | nil => rfl
  | cons p ps ih =>
    rw [List.map_cons] at h
    injection h with h1 h2
    rw [List.cons_append, startsWithCI, Bool.and_eq_true]
    exact ⟨by simp [h1], ih h2⟩

theorem scriptOpen_map_lc : scriptOpenPat.map lc = scriptOpenPat := by decide

theorem scriptClose_map_lc : scriptClosePat.map lc = scriptClosePat := by decide

theorem scriptClose_decomp : scriptClosePat = '<' :: ("/script>").data := by decide

theorem scriptClose_tail_no_lt : ∀ c ∈ ("/script>").data, c ≠ '<' := by decide

theorem findIdx?_gt_none (t : Chars) (h : ∀ c ∈ t, c ≠ '>') :
    t.findIdx? (fun c => c == '>') = none := by
  rw [List.findIdx?_eq_none_iff]
  intro x hx
  simpa using h x hx

theorem findIdx?_append_gt (t rest : Chars) (h : ∀ c ∈ t, c ≠ '>') :
    (t ++ '>' :: rest).findIdx? (fun c => c == '>') = some t.length := by
  rw [List.findIdx?_append, findIdx?_gt_none t h]
  simp [List.findIdx?_cons]

theorem findCloseIdx_prefix (body z : Chars)
    (hb : occursCI scriptClosePat body = false) :
    findCloseIdx (body ++ scriptClosePat ++ z) = some body.length := by
  induction body with
  | nil =>
    have hcons : scriptClosePat ++ z = '<' :: (("/script>").data ++ z) := by
      rw [scriptClose_decomp]
      rfl
    rw [List.nil_append, hcons, findCloseIdx, if_pos]
    · rfl
    · rw [← hcons]
      exact startsWithCI_refl_append scriptClosePat z scriptClose_map_lc
  | cons c body' ih =>
    have hsplit : startsWithCI scriptClosePat (c :: body') = false ∧
        occursCI scriptClosePat body' = false := by
      rw [occursCI, Bool.or_eq_false_iff] at hb
      exact hb
    have hz : scriptClosePat ++ z = '<' :: (("/script>").data ++ z) := by
      rw [scriptClose_decomp]
      rfl
    have hnostart : startsWithCI scriptClosePat ((c :: body') ++ (scriptClosePat ++ z))
        = false := by
      rw [hz]
      by_contra hcontra
      have hT : startsWithCI scriptClosePat
          ((c :: body') ++ '<' :: (("/script>").data ++ z)) = true := by
        simpa using hcontra
      have hT2 := hT
      rw [scriptClose_decomp, List.cons_append, startsWithCI, Bool.and_eq_true] at hT2
      have hlen : ("/script>").data.length ≤ body'.length :=
        startsWithCI_cross_length _ body' _ scriptClose_tail_no_lt hT2.2

      have hfit : scriptClosePat.length ≤ (c :: body').length := by
        rw [scriptClose_decomp]
        have h8 : ("/script>").data.length = 8 := by decide
        simp only [List.length_cons, List.length_nil]
        omega
      have := startsWithCI_of_append scriptClosePat (c :: body') _ hfit hT
      rw [hsplit.1] at this
      cases this
    have hstep : findCloseIdx ((c :: body') ++ scriptClosePat ++ z) =
        (findCloseIdx (body' ++ scriptClosePat ++ z)).map (· + 1) := by
      show findCloseIdx (c :: (body' ++ scriptClosePat ++ z)) = _
      rw [findCloseIdx, if_neg]
      intro hcontra
      have : startsWithCI scriptClosePat ((c :: body') ++ (scriptClosePat ++ z)) = true := by
        simpa using hcontra
      rw [hnostart] at this
      cases this
    rw [hstep, ih hsplit.2]
    rfl

theorem scriptMatchLen_scriptEl (t body z : Chars)
    (ht : ∀ c ∈ t, c ≠ '>')
    (hbd : t.head?.all (fun c => !isWordChar c) = true)
    (hcl : occursCI scriptClosePat body = false) :
    scriptMatchLen (scriptEl t body ++ z) = some (scriptEl t body).length := by
  have hshape : scriptEl t body ++ z =
      scriptOpenPat ++ (t ++ '>' :: (body ++ scriptClosePat ++ z)) := by
    rw [scriptEl]
    simp [List.append_assoc]
  have hopen7 : scriptOpenPat.length = 7 := by decide
  have hdrop7 : (scriptOpenPat ++ (t ++ '>' :: (body ++ scriptClosePat ++ z))).drop 7 =
      t ++ '>' :: (body ++ scriptClosePat ++ z) := by
    rw [show (7 : Nat) = scriptOpenPat.length from hopen7.symm]
    exact List.drop_left _ _
  have hbOk : (match t ++ '>' :: (body ++ scriptClosePat ++ z) with
      | [] => true
      | c :: _ => !isWordChar c) = true := by
    cases t with
    | nil =>
      show (!isWordChar '>') = true
      decide
    | cons c t' =>
      show (!isWordChar c) = true
      simpa using hbd
  have hdropAll : (scriptOpenPat ++ (t ++ '>' :: (body ++ scriptClosePat ++ z))).drop
      (7 + t.length + 1) = body ++ scriptClosePat ++ z := by
    have hre : scriptOpenPat ++ (t ++ '>' :: (body ++ scriptClosePat ++ z)) =
        (scriptOpenPat ++ (t ++ ['>'])) ++ (body ++ scriptClosePat ++ z) := by
      simp
    have hlen : (scriptOpenPat ++ (t ++ ['>'])).length = 7 + t.length + 1 := by
      simp [hopen7]
      omega
    rw [hre, show 7 + t.length + 1 = (scriptOpenPat ++ (t ++ ['>'])).length from hlen.symm]
    exact List.drop_left _ _
  rw [hshape, scriptMatchLen]
  rw [if_pos (by
    simpa using startsWithCI_refl_append scriptOpenPat _ scriptOpen_map_lc)]
  simp only [hdrop7]
  split
  · rw [findIdx?_append_gt t _ ht]
    show (match findCloseIdx ((scriptOpenPat ++
        (t ++ '>' :: (body ++ scriptClosePat ++ z))).drop (7 + t.length + 1)) with
      | none => none
      | some q => some (7 + t.length + 1 + q + 9)) = some (scriptEl t body).length
    rw [hdropAll, findCloseIdx_prefix body z hcl]
    show some (7 + t.length + 1 + body.length + 9) = some (scriptEl t body).length
    congr 1
    have hclose9 : scriptClosePat.length = 9 := by decide
    simp [scriptEl, hopen7, hclose9]
    omega
  · next hcond => exact absurd hbOk hcond

theorem stripScriptsL_drop (s : Chars) (L : Nat) (h : scriptMatchLen s = some L) :
    stripScriptsL s = stripScriptsL (s.drop L) := by
  cases s with
  | nil =>
    have hnone : scriptMatchLen ([] : Chars) = none := by decide
    rw [hnone] at h
    cases h
  | cons c rest =>
    have h1 := scriptMatchLen_pos _ _ h
    rw [stripScriptsL_cons_some c rest L h]
    congr 1
    cases L with
    | zero => omega
    | succ L' => simp

theorem stripScriptsL_script_append (t body z : Chars)
    (ht : ∀ c ∈ t, c ≠ '>')
    (hbd : t.head?.all (fun c => !isWordChar c) = true)
    (hcl : occursCI scriptClosePat body = false) :
    stripScriptsL (scriptEl t body ++ z) = stripScriptsL z := by
  rw [stripScriptsL_drop _ _ (scriptMatchLen_scriptEl t body z ht hbd hcl)]
  exact congrArg stripScriptsL (List.drop_left _ _)

/-- Removal of every well-formed script element from decomposed HTML. -/
theorem stripScriptsL_assemble :
    ∀ (parts : List (Chars × Chars × Chars)) (a0 : Chars),
      occursCI scriptOpenPat a0 = false →
      (∀ p ∈ parts, WfScript p.1 p.2.1 ∧ occursCI scriptOpenPat p.2.2 = false) →
      stripScriptsL (assembleScripts a0 parts) = assembleGaps a0 parts := by
  intro parts
  induction parts with
  | nil =>
    intro a0 ha _
    rw [assembleScripts, assembleGaps]
    exact stripScriptsL_noop a0 ha
  | cons p rest ih =>
    intro a0 ha hp
    obtain ⟨t, body, a⟩ := p
    rw [assembleScripts, assembleGaps]
    have hzshape : ∃ w, scriptEl t body ++ assembleScripts a rest = '<' :: w := by
      refine ⟨("script").data ++ t ++ '>' :: (body ++ scriptClosePat) ++
        assembleScripts a rest, ?_⟩
      rw [scriptEl, scriptOpen_decomp]
      simp
    have hwf := (hp (t, body, a) (by simp)).1
    rw [List.append_assoc, stripScriptsL_gap_append a0 _ ha (Or.inr hzshape),
      stripScriptsL_script_append t body _ hwf.1 hwf.2.1 hwf.2.2,
      ih a (hp (t, body, a) (by simp)).2 (fun q hq => hp q (List.mem_cons_of_mem _ hq))]

/-! ### Base injection: `str.replace("<head>", ..., 1)` -/

theorem startsWithL_self_append (pat r : Chars) : startsWithL pat (pat ++ r) = true := by
  induction pat with
  | nil => rfl
  | cons p ps ih => simp [List.cons_append, startsWithL, ih]

theorem occursL_of_startsWith (pat s : Chars) (h : startsWithL pat s = true) :
    occursL pat s = true := by
  cases s with
  | nil => exact h
  | cons c rest =>
    show (startsWithL pat (c :: rest) || occursL pat rest) = true
    rw [h]
    rfl

theorem occursL_append_mid (pat x y : Chars) : occursL pat (x ++ pat ++ y) = true := by
  induction x with
  | nil =>
    rw [List.nil_append]
    exact occursL_of_startsWith _ _ (startsWithL_self_append pat y)
  | cons c rest ih =>
    show (startsWithL pat (c :: (rest ++ pat ++ y)) || occursL pat (rest ++ pat ++ y)) = true
    rw [ih]
    simp

theorem startsWithL_decomp (pat : Chars) : ∀ s : Chars, startsWithL pat s = true →
    s = pat ++ s.drop pat.length := by
  induction pat with
  | nil =>
    intro s _
    simp
  | cons p ps ih =>
    intro s h
    cases s with
    | nil => cases h
    | cons c cs =>
      rw [startsWithL, Bool.and_eq_true] at h
      have hc : c = p := of_decide_eq_true h.1
      have hdrop : (c :: cs).drop (p :: ps).length = cs.drop ps.length := by simp
      rw [hdrop, List.cons_append, hc]
      exact congrArg (p :: ·) (ih cs h.2)

theorem replaceFirst_split (pat repl : Chars) (hne : pat ≠ []) :
    ∀ s : Chars, occursL pat s = true →
      ∃ u v, s = u ++ pat ++ v ∧ replaceFirstL pat repl s = u ++ repl ++ v := by
  intro s
  induction s with
  | nil =>
    intro h
    cases pat with
    | nil => exact absurd rfl hne
    | cons p ps => cases h
  | cons c rest ih =>
    intro h
    by_cases hs : startsWithL pat (c :: rest) = true
    · refine ⟨[], (c :: rest).drop pat.length, ?_, ?_⟩
      · simpa using startsWithL_decomp pat (c :: rest) hs
      · rw [replaceFirstL, if_pos hs]
        simp
    · have hrest : occursL pat rest = true := by
        rw [occursL, Bool.or_eq_true] at h
        rcases h with h | h
        · exact absurd h hs
        · exact h
      obtain ⟨u, v, h1, h2⟩ := ih hrest
      refine ⟨c :: u, v, ?_, ?_⟩
      · rw [List.cons_append, List.cons_append, ← h1]
      · rw [replaceFirstL, if_neg hs, h2]
        rfl

theorem baseAdjust_contains_base (url html : String)
    (hnb : occursL ("<base").data (lowerL (html.data.take 1000)) = false)
    (hhd : occursL ("<head>").data html.data = true) :
    occursL (baseHref url).data (baseAdjust url html).data = true := by
  rw [baseAdjust, if_pos (by simp [hnb])]
  obtain ⟨u, v, _, h2⟩ := replaceFirst_split ("<head>").data
    ("<head>" ++ baseHref url).data (by decide) html.data hhd
  show occursL (baseHref url).data
    (replaceFirstL ("<head>").data ("<head>" ++ baseHref url).data html.data) = true
  rw [h2, String.data_append]
  have hassoc : u ++ (("<head>").data ++ (baseHref url).data) ++ v =
      (u ++ ("<head>").data) ++ (baseHref url).data ++ v := by
    simp
  rw [hassoc]
  exact occursL_append_mid _ _ _

/-- C7 (amended): when `get_page` serves a URL from a non-expired disk
snapshot, the HTML injected via `set_content` is exactly the snapshot after
base adjustment and script stripping; the `<base href="url">` element is
injected whenever the first 1000 characters contain no `<base>`
(case-insensitively) AND the snapshot contains a literal `<head>` to anchor
the replacement; and script stripping removes exactly the well-formed
(closed, word-boundary, `>`-terminated-tag) script elements of any
decomposition of the adjusted HTML. -/
theorem snapshot_injection (nav : String → Option String) (w : PageWorld)
    (url html : String)
    (hsess : w.pageCache.lookup url = none)
    (hdisk : diskFresh w url = some html) :
    (get_page nav w url).setHtml = some (stripScripts (baseAdjust url html)) ∧
    (get_page nav w url).liveNav = false ∧
    (occursL ("<base").data (lowerL (html.data.take 1000)) = false →
      occursL ("<head>").data html.data = true →
      occursL (baseHref url).data (baseAdjust url html).data = true) ∧
    (∀ (a0 : Chars) (parts : List (Chars × Chars × Chars)),
      (baseAdjust url html).data = assembleScripts a0 parts →
      occursCI scriptOpenPat a0 = false →
      (∀ p ∈ parts, WfScript p.1 p.2.1 ∧ occursCI scriptOpenPat p.2.2 = false) →
      (stripScripts (baseAdjust url html)).data = assembleGaps a0 parts) := by
  refine ⟨?_, ?_, ?_, ?_⟩
  · rw [get_page_fresh_case nav w url html hsess hdisk]
  · rw [get_page_fresh_case nav w url html hsess hdisk]
  · exact baseAdjust_contains_base url html
  · intro a0 parts hdec ha hp
    show stripScriptsL (baseAdjust url html).data = assembleGaps a0 parts
    rw [hdec]
    exact stripScriptsL_assemble parts a0 ha hp

theorem snapshot_injection_witness :
    ((get_page c7nav c7wA "u").setHtml =
        some (stripScripts (baseAdjust "u" c7htmlA)) ∧
      occursL (baseHref "u").data (baseAdjust "u" c7htmlA).data = true) ∧
    ((get_page c7nav c7wB "v").setHtml =
        some (stripScripts (baseAdjust "v" c7htmlB)) ∧
      (stripScripts (baseAdjust "v" c7htmlB)).data = assembleGaps c7a0 c7parts) := by
  have hA := snapshot_injection c7nav c7wA "u" c7htmlA (by decide) (by decide)
  have hB := snapshot_injection c7nav c7wB "v" c7htmlB (by decide) (by decide)
  refine ⟨⟨hA.1, hA.2.2.1 (by decide) (by decide)⟩,
    hB.1, hB.2.2.2 c7a0 c7parts (by decide) (by decide) ?_⟩
  intro p hp
  have hmem : p = (([] : Chars), ("var a").data, ("<p>B</p>").data) := by
    simpa [c7parts] using hp
  subst hmem
  refine ⟨⟨?_, ?_, ?_⟩, ?_⟩
  · intro c hc
    cases hc
  · decide
  · decide
  · decide

/-- C7 counterexample: a snapshot with no `<head>` gets no `<base>`
injected even though it contained none; and an unclosed `<script ...>`
survives stripping, so the injected HTML can still contain a script
element. -/
theorem snapshot_injection_cex :
    ((get_page c7nav c7cw1 "u1").setHtml =
        some (stripScripts (baseAdjust "u1" c7chtml1)) ∧
      occursCI ("<base").data (stripScripts (baseAdjust "u1" c7chtml1)).data = false) ∧
    ((get_page c7nav c7cw2 "u2").setHtml =
        some (stripScripts (baseAdjust "u2" c7chtml2)) ∧
      occursCI scriptOpenPat (stripScripts (baseAdjust "u2" c7chtml2)).data = true) := by
  decide

end Finder
